/-
Verification of the text-anchored XML splicing engine of the
word-document server (core modules `tracked_changes.py`,
`comment_writer.py`, `hyperlink_writer.py`).

The shallow embedding models Python strings as `List Char`, the parsed
OOXML document tree as inductive values (runs, tracked-change wrappers,
comment markers), and each public operation as a pure function from a
document state to a result plus the written-back state.  The system
clock and the random paragraph-id generator are abstracted as explicit
parameters.  Python `while` loops that re-search after each mutation are
embedded with explicit fuel; `none` models non-termination.
-/
import Mathlib

namespace WordSrv

/-- Python strings are modelled as lists of characters. -/
abbrev Str := List Char

/-- Characters of a string literal, for concrete test documents. -/
def str (s : String) : Str := s.toList

/-! ### Integer parsing and printing (`int(val)` / `str(val)` in the source)

`_generate_id`, `_get_max_comment_id`, `_get_next_rid` and the
accept/reject filters all call `int()` on attribute strings inside a
`try/except ValueError`; ids are written back with `str()`.  We model
`int()` by `parseInt` (optional sign followed by a non-empty digit
string) and `str()` by `natToStr` / `intToStr`. -/

/-- Numeric value of a decimal digit character, if it is one. -/
def digitVal (c : Char) : Option Nat :=
  if '0' ≤ c ∧ c ≤ '9' then some (c.toNat - '0'.toNat) else none

/-- Parse a non-empty all-digit string, most significant digit first. -/
def parseDigits : Str → Option Nat
  | [] => none
  | [c] => digitVal c
  | c :: rest => do
    let d ← digitVal c
    let r ← parseDigits rest
    -- value of the remaining digits is positional: d * 10^(#rest) + r
    pure (d * 10 ^ rest.length + r)

/-- Model of Python `int(s)` on attribute values: optional sign, digits. -/
def parseInt : Str → Option Int
  | '-' :: rest => (parseDigits rest).map (fun n => -(n : Int))
  | '+' :: rest => (parseDigits rest).map (fun n => (n : Int))
  | s => (parseDigits s).map (fun n => (n : Int))

/-- Decimal digit character for a value below ten. -/
def digitChar (n : Nat) : Char := Char.ofNat ('0'.toNat + n)

/-- Model of Python `str(n)` for a natural number. -/
def natToStr (n : Nat) : Str :=
  if _h : n < 10 then [digitChar n]
  else natToStr (n / 10) ++ [digitChar (n % 10)]
decreasing_by exact Nat.div_lt_self (by omega) (by omega)

/-- Model of Python `str(i)` for an integer. -/
def intToStr (i : Int) : Str :=
  if i < 0 then '-' :: natToStr i.natAbs else natToStr i.natAbs

/-! ### Literal substring search (`str.find`) -/

/-- Model of Python `haystack.find(needle)`: index of the first
occurrence, or `none` (Python `-1`). -/
def strFind (needle : Str) (hay : Str) : Option Nat :=
  if needle.isPrefixOf hay then some 0
  else
    match hay with
    | [] => none
    | _ :: t => (strFind needle t).map (· + 1)

/-- `occursAt needle hay i`: the needle appears in the haystack starting
at character position `i`. -/
def occursAt (needle hay : Str) (i : Nat) : Prop :=
  i + needle.length ≤ hay.length ∧ (hay.drop i).take needle.length = needle

theorem isPrefixOf_iff_take (needle hay : Str) :
    needle.isPrefixOf hay = true ↔ hay.take needle.length = needle := by
  induction needle generalizing hay with
  | nil => simp [List.isPrefixOf]
  | cons c rest ih =>
    cases hay with
    | nil => simp [List.isPrefixOf]
    | cons b bs =>
      simp only [List.isPrefixOf, Bool.and_eq_true, beq_iff_eq, List.length_cons,
        List.take_succ_cons, List.cons.injEq, ih]
      tauto

theorem take_length_eq_imp_le {needle hay : Str} (h : hay.take needle.length = needle) :
    needle.length ≤ hay.length := by
  have hmin : min needle.length hay.length = needle.length := by
    simpa [List.length_take] using congrArg List.length h
  rcases Nat.le_total needle.length hay.length with h1 | h1
  · exact h1
  · rw [Nat.min_eq_right h1] at hmin; omega

theorem isPrefixOf_length_le {needle hay : Str} (h : needle.isPrefixOf hay = true) :
    needle.length ≤ hay.length := by
  rw [isPrefixOf_iff_take] at h
  exact take_length_eq_imp_le h

theorem occursAt_iff_isPrefixOf (needle hay : Str) (i : Nat) (hi : i ≤ hay.length) :
    occursAt needle hay i ↔ needle.isPrefixOf (hay.drop i) = true := by
  rw [isPrefixOf_iff_take, occursAt]
  constructor
  · rintro ⟨_, h⟩; exact h
  · intro h
    refine ⟨?_, h⟩
    have hlen := take_length_eq_imp_le h
    simp only [List.length_drop] at hlen
    omega

theorem strFind_none (needle hay : Str) (h : strFind needle hay = none) :
    ∀ i, ¬ occursAt needle hay i := by
  intro i hocc
  induction hay generalizing i with
  | nil =>
    rcases hocc with ⟨hle, htake⟩
    simp only [List.length_nil, Nat.le_zero, Nat.add_eq_zero] at hle
    obtain ⟨hi0, hn0⟩ := hle
    rw [List.length_eq_zero] at hn0
    subst hn0
    rw [strFind] at h
    simp [List.isPrefixOf] at h
  | cons b bs ih =>
    rw [strFind] at h
    by_cases hp : needle.isPrefixOf (b :: bs) = true
    · simp [hp] at h
    · simp only [hp, Bool.false_eq_true, if_false] at h
      cases i with
      | zero =>
        rcases hocc with ⟨hle, htake⟩
        simp only [List.drop_zero] at htake
        exact hp ((isPrefixOf_iff_take _ _).2 htake)
      | succ j =>
        rcases hocc with ⟨hle, htake⟩
        simp only [List.length_cons] at hle
        refine ih ?_ j ⟨by omega, ?_⟩
        · rcases Option.map_eq_none'.1 h with h'
          exact h'
        · simpa [List.drop_succ_cons] using htake

theorem strFind_some (needle hay : Str) (pos : Nat)
    (h : strFind needle hay = some pos) :
    occursAt needle hay pos ∧ ∀ j < pos, ¬ occursAt needle hay j := by
  induction hay generalizing pos with
  | nil =>
    rw [strFind] at h
    by_cases hp : needle.isPrefixOf ([] : Str) = true
    · simp only [hp, if_true, Option.some.injEq] at h
      subst h
      refine ⟨⟨?_, ?_⟩, by omega⟩
      · have := isPrefixOf_length_le hp
        simpa using this
      · rw [isPrefixOf_iff_take] at hp
        simpa using hp
    · simp [hp] at h
  | cons b bs ih =>
    rw [strFind] at h
    by_cases hp : needle.isPrefixOf (b :: bs) = true
    · simp only [hp, if_true, Option.some.injEq] at h
      subst h
      refine ⟨⟨?_, ?_⟩, by omega⟩
      · have := isPrefixOf_length_le hp
        simpa using this
      · rw [isPrefixOf_iff_take] at hp
        simpa using hp
    · simp only [hp, Bool.false_eq_true, if_false] at h
      rcases Option.map_eq_some'.1 h with ⟨q, hq, hq1⟩
      rcases ih q hq with ⟨hocc, hmin⟩
      subst hq1
      constructor
      · rcases hocc with ⟨hle, htake⟩
        exact ⟨by simp only [List.length_cons]; omega,
          by simpa [List.drop_succ_cons] using htake⟩
      · intro j hj
        cases j with
        | zero =>
          intro hocc0
          rcases hocc0 with ⟨_, htake⟩
          simp only [List.drop_zero] at htake
          exact hp ((isPrefixOf_iff_take _ _).2 htake)
        | succ k =>
          intro hocck
          rcases hocck with ⟨hle, htake⟩
          simp only [List.length_cons] at hle
          exact hmin k (by omega) ⟨by omega, by simpa [List.drop_succ_cons] using htake⟩

theorem strFind_isSome_of_occursAt (needle hay : Str) (i : Nat)
    (h : occursAt needle hay i) : (strFind needle hay).isSome := by
  cases hfind : strFind needle hay with
  | none => exact absurd h (strFind_none needle hay hfind i)
  | some _ => rfl

/-! ### Data model

A run (`<w:r>`) carries an optional formatting record (`<w:rPr>`, opaque
to the core: only ever deep-copied, modelled by an abstract tag) and a
list of child nodes, of which `<w:t>` and `<w:delText>` carry text.
Paragraph content is a tree: tracked-change wrappers (`<w:ins>`,
`<w:del>`) and hyperlink wrappers contain further items, and comment
range markers / comment reference runs are text-less leaves carrying a
`w:id` attribute.  All attribute values are strings, as in the XML. -/

/-- A child node of a run: `<w:t>`, `<w:delText>`, or anything else. -/
inductive TChild where
  | tNode (s : Str)
  | delTNode (s : Str)
  | otherNode
deriving DecidableEq, Repr

/-- A `<w:r>` element. -/
structure Run where
  rpr : Option Nat
  children : List TChild
deriving DecidableEq, Repr

/-- `run.find(W("t")) is not None`: the run has a `<w:t>` child. -/
def Run.hasT (r : Run) : Bool :=
  r.children.any (fun c => match c with | .tNode _ => true | _ => false)

/-- `_get_run_text`: concatenation of the texts of the run's `<w:t>`
children (Python skips `None` texts, modelled as empty strings). -/
def runText (r : Run) : Str :=
  (r.children.map (fun c => match c with | .tNode s => s | _ => [])).flatten

/-- All text carried by a run: `<w:t>` and `<w:delText>` children. -/
def runAllText (r : Run) : Str :=
  (r.children.map (fun c => match c with
    | .tNode s => s | .delTNode s => s | _ => [])).flatten

/-- `<w:delText>` content of a run. -/
def runDelText (r : Run) : Str :=
  (r.children.map (fun c => match c with | .delTNode s => s | _ => [])).flatten

/-- An item of paragraph content. -/
inductive Item where
  | run (r : Run)
  | ins (id author date : Str) (children : List Item)
  | del (id author date : Str) (children : List Item)
  | hyper (rid : Str) (children : List Item)
  | crStart (id : Str)
  | crEnd (id : Str)
  | crRef (id : Str)
  | other (idAttr : Option Str)

/-- A `<w:p>` element: its ordered content. -/
abbrev Para := List Item

mutual
/-- `p.findall(f".//{W('r')}")` filtered by `r.find(W("t")) is not None`:
the text-bearing runs of an item subtree, in document order. -/
def textRunsItem : Item → List Run
  | .run r => if r.hasT then [r] else []
  | .ins _ _ _ ch => textRunsItems ch
  | .del _ _ _ ch => textRunsItems ch
  | .hyper _ ch => textRunsItems ch
  | _ => []

def textRunsItems : List Item → List Run
  | [] => []
  | it :: rest => textRunsItem it ++ textRunsItems rest
end

/-- The text-bearing runs of a paragraph, in document order. -/
def textRuns (p : Para) : List Run := textRunsItems p

mutual
/-- Generic document-order text of an item tree, reading each run with
`g`.  Wrappers are transparent; markers carry no text. -/
def treeTextItem (g : Run → Str) : Item → Str
  | .run r => g r
  | .ins _ _ _ ch => treeTextItems g ch
  | .del _ _ _ ch => treeTextItems g ch
  | .hyper _ ch => treeTextItems g ch
  | _ => []

def treeTextItems (g : Run → Str) : List Item → Str
  | [] => []
  | it :: rest => treeTextItem g it ++ treeTextItems g rest
end

/-- `_paragraph_text`: concatenated `<w:t>` content of a paragraph
(all descendants, including inside wrappers). -/
def plainText (p : Para) : Str := treeTextItems runText p

/-- Concatenated `<w:t>` plus `<w:delText>` content of a paragraph. -/
def fullTreeText (p : Para) : Str := treeTextItems runAllText p

/-- The paragraph contains no `<w:delText>` node anywhere. -/
def noDelTextRun (r : Run) : Bool :=
  r.children.all (fun c => match c with | .delTNode _ => false | _ => true)

mutual
def noDelTextItem : Item → Bool
  | .run r => noDelTextRun r
  | .ins _ _ _ ch => noDelTextItems ch
  | .del _ _ _ ch => noDelTextItems ch
  | .hyper _ ch => noDelTextItems ch
  | _ => true

def noDelTextItems : List Item → Bool
  | [] => true
  | it :: rest => noDelTextItem it && noDelTextItems rest
end

/-! ### The run-text indexer (`_find_text_in_paragraph`) -/

/-- The character map of `_find_text_in_paragraph`: one `(run_index,
char_offset_in_run)` entry per character, runs enumerated from `b`. -/
def charMapFrom : List Run → Nat → List (Nat × Nat)
  | [], _ => []
  | r :: rest, ri =>
      (List.range (runText r).length).map (fun ci => (ri, ci)) ++ charMapFrom rest (ri + 1)

def charMap (runs : List Run) : List (Nat × Nat) := charMapFrom runs 0

/-- `"".flatten(_get_run_text(r) for r in runs)`. -/
def joinedRunText (runs : List Run) : Str := (runs.map runText).flatten

/-- Python list indexing with negative-index support (`char_map[pos]`,
`char_map[pos + len - 1]`); `none` models an `IndexError`. -/
def pyGet (l : List (Nat × Nat)) (i : Int) : Option (Nat × Nat) :=
  if i < 0 then
    if (-i).toNat ≤ l.length then l.get? (l.length - (-i).toNat) else none
  else l.get? i.toNat

/-- Default run used to translate Python element lookups that cannot
fail on the source's control path. -/
def dfltRun : Run := ⟨none, []⟩

/-- The `for ri in range(start_ri, end_ri + 1)` loop of
`_find_text_in_paragraph`, building the result triples. -/
def buildMatch (runs : List Run) (startRi startCi endRi endCi : Nat) :
    List (Nat × Nat × Nat) :=
  (List.range (endRi + 1 - startRi)).map (fun k =>
    let ri := startRi + k
    let rt := runText (runs.getD ri dfltRun)
    (ri, (if ri = startRi then startCi else 0),
         (if ri = endRi then endCi + 1 else rt.length)))

/-- `_find_text_in_paragraph(p, search_text)`: `none`, or the list of
`(run_index, start_offset, end_offset)` triples covering the first
occurrence of the search text in the concatenated run text.  Run
indices refer to `textRuns p` (the Python code holds element
references; the model addresses the same runs by their position among
the paragraph's text-bearing runs in document order). -/
def findTextInParagraph (p : Para) (searchText : Str) :
    Option (List (Nat × Nat × Nat)) :=
  let runs := textRuns p
  if runs.isEmpty then none
  else
    let cm := charMap runs
    let full := joinedRunText runs
    match strFind searchText full with
    | none => none
    | some pos =>
      match pyGet cm (pos : Int), pyGet cm ((pos : Int) + searchText.length - 1) with
      | some (startRi, startCi), some (endRi, endCi) =>
        some (buildMatch runs startRi startCi endRi endCi)
      | _, _ => none

/-- Text selected by one match triple: `run_text[s:e]`. -/
def pieceText (runs : List Run) (t : Nat × Nat × Nat) : Str :=
  ((runText (runs.getD t.1 dfltRun)).take t.2.2).drop t.2.1

/-- Concatenated text selected by a match. -/
def matchText (runs : List Run) (m : List (Nat × Nat × Nat)) : Str :=
  (m.map (pieceText runs)).flatten

/-- A single-run paragraph used in concrete checks. -/
def mkTextRun (rpr : Option Nat) (s : Str) : Run := ⟨rpr, [.tNode s]⟩

/- The spec's concrete scenario: paragraph `"The quick brown fox"` split
across three runs; searching `"brown"` matches inside run 1 only, at
offsets 3–8. -/
example :
    findTextInParagraph
      [.run (mkTextRun none (str "The qui")),
       .run (mkTextRun none (str "ck brown")),
       .run (mkTextRun none (str " fox"))] (str "brown")
    = some [(1, 3, 8)] := by decide

example :
    findTextInParagraph
      [.run (mkTextRun none (str "The qui")),
       .run (mkTextRun none (str "ck brown")),
       .run (mkTextRun none (str " fox"))] (str "quick")
    = some [(0, 4, 7), (1, 0, 2)] := by decide

example :
    findTextInParagraph [.run (mkTextRun none (str "The qui"))] (str "xyz")
    = none := by decide

/-! ### Character-map lemmas -/

theorem charMapFrom_length (runs : List Run) (b : Nat) :
    (charMapFrom runs b).length = (joinedRunText runs).length := by
  induction runs generalizing b with
  | nil => simp [charMapFrom, joinedRunText]
  | cons r rest ih =>
    simp only [charMapFrom, List.length_append, List.length_map, List.length_range]
    rw [ih]
    simp [joinedRunText]

theorem charMapFrom_shift (runs : List Run) (a b : Nat) :
    charMapFrom runs (a + b) = (charMapFrom runs a).map (fun q => (q.1 + b, q.2)) := by
  induction runs generalizing a with
  | nil => simp [charMapFrom]
  | cons r rest ih =>
    simp only [charMapFrom, List.map_append, List.map_map]
    congr 1
    have h2 : a + b + 1 = (a + 1) + b := by omega
    rw [h2, ih]

theorem charMapFrom_get_head {r : Run} (rest : List Run) (b pos : Nat)
    (h : pos < (runText r).length) :
    (charMapFrom (r :: rest) b).get? pos = some (b, pos) := by
  rw [charMapFrom]
  rw [List.get?_append (by simpa using h)]
  rw [List.get?_eq_getElem?, List.getElem?_map, List.getElem?_range h]
  rfl

theorem charMapFrom_get_tail {r : Run} (rest : List Run) (b pos : Nat)
    (h : (runText r).length ≤ pos) :
    (charMapFrom (r :: rest) b).get? pos
      = (charMapFrom rest (b + 1)).get? (pos - (runText r).length) := by
  rw [charMapFrom, List.get?_append_right (by simpa using h)]
  simp

theorem charMap_cons_get_tail {r : Run} (rest : List Run) (pos : Nat)
    (h : (runText r).length ≤ pos) :
    (charMap (r :: rest)).get? pos
      = ((charMap rest).get? (pos - (runText r).length)).map (fun q => (q.1 + 1, q.2)) := by
  rw [charMap, charMapFrom_get_tail rest 0 pos h]
  have : (0 : Nat) + 1 = 0 + 1 := rfl
  rw [show (0 : Nat) + 1 = 0 + 1 from rfl, charMapFrom_shift rest 0 1]
  simp [charMap, List.get?_map]

/-! ### Decomposition lemmas for `buildMatch` -/

theorem buildMatch_single (runs : List Run) (sri sci eci : Nat) :
    buildMatch runs sri sci sri eci = [(sri, sci, eci + 1)] := by
  unfold buildMatch
  have h : sri + 1 - sri = 1 := by omega
  rw [h]
  have h1 : List.range 1 = [0] := rfl
  rw [h1]
  simp

theorem matchText_buildMatch_shift (r : Run) (rest : List Run)
    (sri sci eri eci : Nat) (hs : 1 ≤ sri) (he : 1 ≤ eri) :
    matchText (r :: rest) (buildMatch (r :: rest) sri sci eri eci)
      = matchText rest (buildMatch rest (sri - 1) sci (eri - 1) eci) := by
  unfold matchText buildMatch
  rw [List.map_map, List.map_map]
  have hrange : eri + 1 - sri = (eri - 1) + 1 - (sri - 1) := by omega
  rw [hrange]
  congr 1
  refine List.map_congr_left (fun k _ => ?_)
  simp only [Function.comp_apply, pieceText]
  have h1 : sri + k = eri ↔ (sri - 1) + k = eri - 1 := by omega
  have h2 : sri + k = sri ↔ (sri - 1) + k = sri - 1 := by omega
  have h3 : (r :: rest).getD (sri + k) dfltRun = rest.getD ((sri - 1) + k) dfltRun := by
    have : sri + k = ((sri - 1) + k) + 1 := by omega
    rw [this]
    rfl
  by_cases hk1 : (sri - 1) + k = eri - 1 <;> by_cases hk2 : (sri - 1) + k = sri - 1 <;>
    simp [h1.2, h3, hk1, hk2] <;> simp_all [h1, h2, h3]

theorem matchText_buildMatch_cons (r : Run) (rest : List Run)
    (sci eri eci : Nat) (he : 1 ≤ eri) :
    matchText (r :: rest) (buildMatch (r :: rest) 0 sci eri eci)
      = (runText r).drop sci ++ matchText rest (buildMatch rest 0 0 (eri - 1) eci) := by
  unfold matchText buildMatch
  have hrange : eri + 1 - 0 = (eri - 1 + 1 - 0) + 1 := by omega
  rw [hrange, List.range_succ_eq_map]
  simp only [List.map_cons, List.map_map, List.flatten_cons]
  congr 1
  · simp only [pieceText]
    have hne : ¬ (0 = eri) := by omega
    simp [hne, List.getD]
  · congr 1
    refine List.map_congr_left (fun k _ => ?_)
    simp only [Function.comp_apply, pieceText, Nat.zero_add, Nat.succ_eq_add_one]
    have h2 : ¬ (k + 1 = 0) := Nat.succ_ne_zero k
    have h3 : (r :: rest).getD (k + 1) dfltRun = rest.getD k dfltRun := rfl
    by_cases hk1 : k = eri - 1
    · have hk1' : k + 1 = eri := by omega
      rw [if_pos hk1', if_pos hk1, if_neg h2, h3]
      simp [ite_self]
    · have hk1' : ¬ (k + 1 = eri) := by omega
      rw [if_neg hk1', if_neg hk1, if_neg h2, h3]
      simp [ite_self]

theorem joinedRunText_cons (r : Run) (rest : List Run) :
    joinedRunText (r :: rest) = runText r ++ joinedRunText rest := by
  simp [joinedRunText]

/-- Core extraction lemma, prefix form: the needle starts at character 0
of the joined run text; the built match selects exactly the needle, and
the joined text decomposes as needle, end-run remainder, untouched
suffix runs. -/
theorem matchText_prefix (runs : List Run) (s : Str) (hs : s ≠ [])
    (hlen : s.length ≤ (joinedRunText runs).length)
    (hpre : (joinedRunText runs).take s.length = s)
    (eri eci : Nat)
    (hend : (charMap runs).get? (s.length - 1) = some (eri, eci)) :
    eri < runs.length ∧ eci + 1 ≤ (runText (runs.getD eri dfltRun)).length ∧
    matchText runs (buildMatch runs 0 0 eri eci) = s ∧
    joinedRunText runs
      = s ++ (runText (runs.getD eri dfltRun)).drop (eci + 1)
          ++ joinedRunText (runs.drop (eri + 1)) := by
  induction runs generalizing s eri eci with
  | nil => simp [charMap, charMapFrom] at hend
  | cons r rest ih =>
    have hs1 : 1 ≤ s.length := List.length_pos.2 hs
    by_cases hcase : s.length ≤ (runText r).length
    · have hpos : s.length - 1 < (runText r).length := by omega
      rw [charMap, charMapFrom_get_head rest 0 _ hpos] at hend
      obtain ⟨heri, heci⟩ := Prod.mk.inj (Option.some.inj hend)
      subst heri; subst heci
      have hgd : (r :: rest).getD 0 dfltRun = r := rfl
      have hE : s.length - 1 + 1 = s.length := by omega
      have htake : (runText r).take s.length = s := by
        rw [joinedRunText_cons, List.take_append_eq_append_take] at hpre
        have h0 : s.length - (runText r).length = 0 := by omega
        rw [h0] at hpre
        simpa using hpre
      refine ⟨by simp, by rw [hgd]; omega, ?_, ?_⟩
      · rw [buildMatch_single]
        simp only [matchText, pieceText, List.map_cons, List.map_nil,
          List.flatten_cons, List.flatten_nil, List.append_nil]
        rw [hgd, hE, List.drop_zero, htake]
      · rw [hgd, hE]
        have hdrop1 : (r :: rest).drop (0 + 1) = rest := rfl
        rw [hdrop1, joinedRunText_cons]
        conv_lhs => rw [← List.take_append_drop s.length (runText r)]
        rw [htake, List.append_assoc]
    · -- the needle runs past the head run
      have hL : (runText r).length < s.length := by omega
      have hrt : (runText r).length ≤ s.length - 1 := by omega
      rw [charMap_cons_get_tail rest _ hrt] at hend
      obtain ⟨⟨eri2, eci2⟩, hq, hq2⟩ := Option.map_eq_some'.1 hend
      obtain ⟨heri, heci⟩ := Prod.mk.inj (show (eri2 + 1, eci2) = (eri, eci) by simpa using hq2)
      subst heri; subst heci
      have hjc : joinedRunText (r :: rest) = runText r ++ joinedRunText rest :=
        joinedRunText_cons r rest
      rw [hjc] at hpre hlen
      rw [List.take_append_eq_append_take] at hpre
      have hrfull : (runText r).take s.length = runText r :=
        List.take_of_length_le (by omega)
      rw [hrfull] at hpre
      set s2 := (joinedRunText rest).take (s.length - (runText r).length) with hs2def
      have hsplit : s = runText r ++ s2 := hpre.symm
      have hlen2 : s.length = (runText r).length + s2.length := by
        rw [hsplit]; simp
      have hs2len : s2.length = s.length - (runText r).length := by omega
      have hs2ne : s2 ≠ [] := by
        intro hc
        rw [hc] at hs2len
        simp at hs2len
        omega
      have hlenle : s2.length ≤ (joinedRunText rest).length := by
        simp only [List.length_append] at hlen
        omega
      have hpre2 : (joinedRunText rest).take s2.length = s2 := by
        rw [hs2len]
      have hidx : s.length - 1 - (runText r).length = s2.length - 1 := by omega
      rw [hidx] at hq
      obtain ⟨ih1, ih2, ih3, ih4⟩ := ih s2 hs2ne hlenle hpre2 eri2 eci2 hq
      have hgd : (r :: rest).getD (eri2 + 1) dfltRun = rest.getD eri2 dfltRun := rfl
      refine ⟨by simp; omega, by rw [hgd]; exact ih2, ?_, ?_⟩
      · rw [matchText_buildMatch_cons r rest 0 (eri2 + 1) eci2 (by omega)]
        have he1 : eri2 + 1 - 1 = eri2 := rfl
        rw [he1, List.drop_zero, ih3, hsplit]
      · have hdrop : (r :: rest).drop (eri2 + 1 + 1) = rest.drop (eri2 + 1) := rfl
        rw [hjc, hdrop, hgd, ih4, hsplit]
        simp [List.append_assoc]

theorem take_drop_glue (l : Str) (n : Nat) (z : Str) :
    l.take n ++ (l.drop n ++ z) = l ++ z := by
  rw [← List.append_assoc, List.take_append_drop]

/-- Full indexer decomposition: when the needle occurs at position `pos`
of the joined run text and the character map locates its first and last
characters, the built match selects exactly the needle, starts at global
position `pos`, and the joined run text decomposes as prefix runs,
before-leftover, needle, after-leftover, suffix runs. -/
theorem matchText_spec (runs : List Run) (s : Str) (pos : Nat) (hs : s ≠ [])
    (hocc : occursAt s (joinedRunText runs) pos)
    (sri sci eri eci : Nat)
    (hstart : (charMap runs).get? pos = some (sri, sci))
    (hend : (charMap runs).get? (pos + s.length - 1) = some (eri, eci)) :
    sri ≤ eri ∧ eri < runs.length ∧
    sci < (runText (runs.getD sri dfltRun)).length ∧
    eci + 1 ≤ (runText (runs.getD eri dfltRun)).length ∧
    matchText runs (buildMatch runs sri sci eri eci) = s ∧
    (joinedRunText (runs.take sri)).length + sci = pos ∧
    joinedRunText runs
      = joinedRunText (runs.take sri) ++ (runText (runs.getD sri dfltRun)).take sci
          ++ s ++ (runText (runs.getD eri dfltRun)).drop (eci + 1)
          ++ joinedRunText (runs.drop (eri + 1)) := by
  induction runs generalizing pos sri sci eri eci with
  | nil => simp [charMap, charMapFrom] at hstart
  | cons r rest ih =>
    have hs1 : 1 ≤ s.length := List.length_pos.2 hs
    obtain ⟨hoccle, hocctake⟩ := hocc
    rw [joinedRunText_cons, List.length_append] at hoccle
    by_cases hposL : pos < (runText r).length
    · rw [charMap, charMapFrom_get_head rest 0 _ hposL] at hstart
      obtain ⟨hsri, hsci⟩ := Prod.mk.inj (Option.some.inj hstart)
      subst hsri; subst hsci
      have hgd0 : (r :: rest).getD 0 dfltRun = r := rfl
      by_cases hcase : pos + s.length ≤ (runText r).length
      · -- the whole needle sits inside the head run
        have hpos2 : pos + s.length - 1 < (runText r).length := by omega
        rw [charMap, charMapFrom_get_head rest 0 _ hpos2] at hend
        obtain ⟨heri, heci⟩ := Prod.mk.inj (Option.some.inj hend)
        subst heri; subst heci
        have hdtake : (runText r).drop pos
            = s ++ (runText r).drop (pos + s.length) := by
          have h1 : ((runText r).drop pos ++ joinedRunText rest).take s.length = s := by
            have hd : (joinedRunText (r :: rest)).drop pos
                = (runText r).drop pos ++ joinedRunText rest := by
              rw [joinedRunText_cons, List.drop_append_eq_append_drop]
              have h0 : pos - (runText r).length = 0 := by omega
              rw [h0, List.drop_zero]
            rw [← hd]; exact hocctake
          rw [List.take_append_eq_append_take] at h1
          have h2 : s.length - ((runText r).drop pos).length = 0 := by
            simp only [List.length_drop]; omega
          rw [h2] at h1
          simp only [List.take_zero, List.append_nil] at h1
          conv_lhs => rw [← List.take_append_drop s.length ((runText r).drop pos)]
          rw [h1, List.drop_drop]
        have hE : pos + s.length - 1 + 1 = pos + s.length := by omega
        refine ⟨Nat.le_refl 0, by simp, by rw [hgd0]; omega, by rw [hgd0]; omega, ?_,
          by simp [joinedRunText], ?_⟩
        · rw [buildMatch_single]
          simp only [matchText, pieceText, List.map_cons, List.map_nil,
            List.flatten_cons, List.flatten_nil, List.append_nil]
          rw [hgd0, hE]
          rw [List.drop_take]
          have : pos + s.length - pos = s.length := by omega
          rw [this]
          rw [hdtake]
          rw [List.take_append_eq_append_take]
          simp
        · rw [hgd0, hE]
          have hdrop1 : (r :: rest).drop (0 + 1) = rest := rfl
          have htake0 : joinedRunText ((r :: rest).take 0) = [] := rfl
          rw [hdrop1, htake0, List.nil_append, joinedRunText_cons]
          conv_lhs => rw [← List.take_append_drop pos (runText r)]
          rw [hdtake]
          simp only [List.append_assoc]
      · -- the needle starts in the head run and continues into the tail
        have h1 : (runText r).length ≤ pos + s.length - 1 := by omega
        rw [charMap_cons_get_tail rest _ h1] at hend
        obtain ⟨⟨eri2, eci2⟩, hq, hq2⟩ := Option.map_eq_some'.1 hend
        obtain ⟨heri, heci⟩ := Prod.mk.inj (show (eri2 + 1, eci2) = (eri, eci) by simpa using hq2)
        subst heri; subst heci
        -- split the needle at the head-run boundary
        set k := (runText r).length - pos with hk
        have hsplit0 : ((runText r).drop pos ++ joinedRunText rest).take s.length = s := by
          have hd : (joinedRunText (r :: rest)).drop pos
              = (runText r).drop pos ++ joinedRunText rest := by
            rw [joinedRunText_cons, List.drop_append_eq_append_drop]
            have h0 : pos - (runText r).length = 0 := by omega
            rw [h0, List.drop_zero]
          rw [← hd]; exact hocctake
        rw [List.take_append_eq_append_take] at hsplit0
        have hdlen : ((runText r).drop pos).length = k := by
          simp only [List.length_drop, hk]
        have hdfull : ((runText r).drop pos).take s.length = (runText r).drop pos := by
          apply List.take_of_length_le
          rw [hdlen]; omega
        rw [hdfull, hdlen] at hsplit0
        set s2 := (joinedRunText rest).take (s.length - k) with hs2def
        have hsplit : s = (runText r).drop pos ++ s2 := hsplit0.symm
        have hlen2 : s.length = k + s2.length := by
          rw [hsplit]; simp [hdlen]
        have hs2len : s2.length = s.length - k := by omega
        have hs2ne : s2 ≠ [] := by
          intro hc
          rw [hc] at hs2len
          simp at hs2len
          omega
        have hlenle : s2.length ≤ (joinedRunText rest).length := by omega
        have hpre2 : (joinedRunText rest).take s2.length = s2 := by rw [hs2len]
        have hidx : pos + s.length - 1 - (runText r).length = s2.length - 1 := by omega
        rw [hidx] at hq
        obtain ⟨ih1, ih2, ih3, ih4⟩ := matchText_prefix rest s2 hs2ne hlenle hpre2 eri2 eci2 hq
        have hgd : (r :: rest).getD (eri2 + 1) dfltRun = rest.getD eri2 dfltRun := rfl
        refine ⟨by omega, by simp only [List.length_cons]; omega, by rw [hgd0]; omega,
          by rw [hgd]; exact ih2, ?_, by simp [joinedRunText], ?_⟩
        · rw [matchText_buildMatch_cons r rest pos (eri2 + 1) eci2 (by omega)]
          have he1 : eri2 + 1 - 1 = eri2 := rfl
          rw [he1, ih3, hsplit]
        · have hdrop : (r :: rest).drop (eri2 + 1 + 1) = rest.drop (eri2 + 1) := rfl
          have htake0 : joinedRunText ((r :: rest).take 0) = [] := rfl
          rw [hdrop, hgd, hgd0, htake0, List.nil_append, joinedRunText_cons, ih4, hsplit]
          simp only [List.append_assoc]
          rw [take_drop_glue]
    · -- the match starts past the head run: shift everything into the tail
      push_neg at hposL
      have hposL2 : (runText r).length ≤ pos + s.length - 1 := by omega
      rw [charMap_cons_get_tail rest _ hposL] at hstart
      rw [charMap_cons_get_tail rest _ hposL2] at hend
      obtain ⟨⟨sri2, sci2⟩, hqs, hqs2⟩ := Option.map_eq_some'.1 hstart
      obtain ⟨hsri, hsci⟩ := Prod.mk.inj (show (sri2 + 1, sci2) = (sri, sci) by simpa using hqs2)
      subst hsri; subst hsci
      obtain ⟨⟨eri2, eci2⟩, hqe, hqe2⟩ := Option.map_eq_some'.1 hend
      obtain ⟨heri, heci⟩ := Prod.mk.inj (show (eri2 + 1, eci2) = (eri, eci) by simpa using hqe2)
      subst heri; subst heci
      have hocc2 : occursAt s (joinedRunText rest) (pos - (runText r).length) := by
        constructor
        · omega
        · have : (joinedRunText rest).drop (pos - (runText r).length)
              = (joinedRunText (r :: rest)).drop pos := by
            rw [joinedRunText_cons, List.drop_append_eq_append_drop]
            have h0 : pos - (runText r).length ≥ 0 := by omega
            have h1 : (runText r).drop pos = [] := by
              apply List.drop_eq_nil_of_le
              omega
            rw [h1, List.nil_append]
          rw [this]
          exact hocctake
      have hidx2 : pos + s.length - 1 - (runText r).length
          = (pos - (runText r).length) + s.length - 1 := by omega
      rw [hidx2] at hqe
      obtain ⟨ihA, ihB, ihC, ihD, ihE, ihF, ihG⟩ :=
        ih (pos - (runText r).length) hocc2 sri2 sci2 eri2 eci2 hqs hqe
      have hgds : (r :: rest).getD (sri2 + 1) dfltRun = rest.getD sri2 dfltRun := rfl
      have hgde : (r :: rest).getD (eri2 + 1) dfltRun = rest.getD eri2 dfltRun := rfl
      refine ⟨by omega, by simp; omega, by rw [hgds]; exact ihC, by rw [hgde]; exact ihD, ?_, ?_, ?_⟩
      · rw [matchText_buildMatch_shift r rest (sri2 + 1) sci2 (eri2 + 1) eci2 (by omega) (by omega)]
        have h1 : sri2 + 1 - 1 = sri2 := rfl
        have h2 : eri2 + 1 - 1 = eri2 := rfl
        rw [h1, h2, ihE]
      · have htk : (r :: rest).take (sri2 + 1) = r :: rest.take sri2 := rfl
        rw [htk, joinedRunText_cons, List.length_append]
        omega
      · have htk : (r :: rest).take (sri2 + 1) = r :: rest.take sri2 := rfl
        have hdr : (r :: rest).drop (eri2 + 1 + 1) = rest.drop (eri2 + 1) := rfl
        rw [htk, hdr, hgds, hgde, joinedRunText_cons, joinedRunText_cons, ihG]
        simp [List.append_assoc]

/-! ### In-place run replacement

The source splices mutate a paragraph by removing each matched run from
its parent (`run_parent.remove(run_elem)`) and inserting the new
elements at the first matched run's original position in its parent
(`parent.insert(insert_idx + offset, ...)`, with `insert_idx` computed
before removal and all removed siblings of that parent lying at indices
`>= insert_idx`).  The net effect on the tree is: the first matched run
is replaced in place by the inserted elements, and every other matched
run is deleted in place.  `rtrItems` expresses exactly this: walk the
tree in document order, numbering the text-bearing runs, and replace
the k-th text run by `f k r` while keeping everything else. -/

mutual
def rtrItem (f : Nat → Run → List Item) : Item → Nat → List Item × Nat
  | .run r, c => if r.hasT then (f c r, c + 1) else ([.run r], c)
  | .ins i a d ch, c =>
      let p := rtrItems f ch c
      ([.ins i a d p.1], p.2)
  | .del i a d ch, c =>
      let p := rtrItems f ch c
      ([.del i a d p.1], p.2)
  | .hyper rid ch, c =>
      let p := rtrItems f ch c
      ([.hyper rid p.1], p.2)
  | it, c => ([it], c)

def rtrItems (f : Nat → Run → List Item) : List Item → Nat → List Item × Nat
  | [], c => ([], c)
  | it :: rest, c =>
      let p := rtrItem f it c
      let q := rtrItems f rest p.2
      (p.1 ++ q.1, q.2)
end

/-- `_make_run(text, rpr, is_del)`. -/
def mkRun (text : Str) (rpr : Option Nat) (isDel : Bool) : Run :=
  ⟨rpr, [if isDel then .delTNode text else .tNode text]⟩

/-- Sum text over a run list, giving run `k` (counted from `c`) to `h`. -/
def joinEnumFrom (h : Nat → Run → Str) : List Run → Nat → Str
  | [], _ => []
  | r :: rest, c => h c r ++ joinEnumFrom h rest (c + 1)

theorem joinEnumFrom_append (h : Nat → Run → Str) (l1 l2 : List Run) (c : Nat) :
    joinEnumFrom h (l1 ++ l2) c = joinEnumFrom h l1 c ++ joinEnumFrom h l2 (c + l1.length) := by
  induction l1 generalizing c with
  | nil => simp [joinEnumFrom]
  | cons r rest ih =>
    rw [List.cons_append]
    show h c r ++ joinEnumFrom h (rest ++ l2) (c + 1) = _
    rw [ih]
    have hc : c + 1 + rest.length = c + (rest.length + 1) := by omega
    rw [hc]
    simp only [joinEnumFrom, List.length_cons, List.append_assoc]

theorem treeTextItems_append (g : Run → Str) (l1 l2 : List Item) :
    treeTextItems g (l1 ++ l2) = treeTextItems g l1 ++ treeTextItems g l2 := by
  induction l1 with
  | nil => simp [treeTextItems]
  | cons it rest ih => simp [treeTextItems, ih]

theorem textRunsItems_append (l1 l2 : List Item) :
    textRunsItems (l1 ++ l2) = textRunsItems l1 ++ textRunsItems l2 := by
  induction l1 with
  | nil => simp [textRunsItems]
  | cons it rest ih => simp [textRunsItems, ih]

mutual
theorem rtrItem_counter (f : Nat → Run → List Item) (it : Item) (c : Nat) :
    (rtrItem f it c).2 = c + (textRunsItem it).length := by
  cases it with
  | run r =>
    by_cases h : r.hasT <;> simp [rtrItem, textRunsItem, h]
  | ins i a d ch => simp [rtrItem, textRunsItem, rtrItems_counter f ch c]
  | del i a d ch => simp [rtrItem, textRunsItem, rtrItems_counter f ch c]
  | hyper rid ch => simp [rtrItem, textRunsItem, rtrItems_counter f ch c]
  | crStart i => simp [rtrItem, textRunsItem]
  | crEnd i => simp [rtrItem, textRunsItem]
  | crRef i => simp [rtrItem, textRunsItem]
  | other i => simp [rtrItem, textRunsItem]

theorem rtrItems_counter (f : Nat → Run → List Item) (l : List Item) (c : Nat) :
    (rtrItems f l c).2 = c + (textRunsItems l).length := by
  cases l with
  | nil => simp [rtrItems, textRunsItems]
  | cons it rest =>
    simp only [rtrItems, textRunsItems, List.length_append]
    rw [rtrItems_counter f rest (rtrItem f it c).2, rtrItem_counter f it c]
    omega
end

theorem tchild_t_nil (l : List TChild)
    (h : (l.any (fun c => match c with | .tNode _ => true | _ => false)) = false) :
    (l.map (fun c => match c with | TChild.tNode s => s | _ => [])).flatten = [] := by
  induction l with
  | nil => rfl
  | cons ch rest ih =>
    simp only [List.any_cons, Bool.or_eq_false_iff] at h
    obtain ⟨h1, h2⟩ := h
    cases ch with
    | tNode s => simp at h1
    | delTNode s => simpa using ih h2
    | otherNode => simpa using ih h2

theorem tchild_all_eq_t (l : List TChild)
    (hnd : (l.all (fun c => match c with | .delTNode _ => false | _ => true)) = true) :
    (l.map (fun c => match c with | TChild.tNode s => s | TChild.delTNode s => s | _ => [])).flatten
      = (l.map (fun c => match c with | TChild.tNode s => s | _ => [])).flatten := by
  induction l with
  | nil => rfl
  | cons ch rest ih =>
    simp only [List.all_cons, Bool.and_eq_true] at hnd
    obtain ⟨hnd1, hnd2⟩ := hnd
    cases ch with
    | tNode s => simpa using ih hnd2
    | delTNode s => simp at hnd1
    | otherNode => simpa using ih hnd2

/-- A run with no `<w:t>` child has empty `<w:t>` text. -/
theorem runText_eq_nil_of_not_hasT {r : Run} (h : r.hasT = false) : runText r = [] :=
  tchild_t_nil r.children h

/-- A delText-free run's full text is its `<w:t>` text. -/
theorem runAllText_eq_runText {r : Run} (hnd : noDelTextRun r = true) :
    runAllText r = runText r :=
  tchild_all_eq_t r.children hnd

/-- A delText-free run with no `<w:t>` child carries no text at all. -/
theorem runAllText_eq_nil_of_not_hasT {r : Run} (h : r.hasT = false)
    (hnd : noDelTextRun r = true) : runAllText r = [] := by
  rw [runAllText_eq_runText hnd]
  exact runText_eq_nil_of_not_hasT h

mutual
/-- Substitution, `<w:t>`-text form: the `<w:t>` text of the transformed
item is the enumerated text of the replacements. -/
theorem rtr_text_item (f : Nat → Run → List Item) (it : Item) (c : Nat) :
    treeTextItems runText (rtrItem f it c).1
      = joinEnumFrom (fun k r => treeTextItems runText (f k r)) (textRunsItem it) c := by
  cases it with
  | run r =>
    by_cases h : r.hasT
    · simp [rtrItem, textRunsItem, h, joinEnumFrom, treeTextItems]
    · simp only [rtrItem, textRunsItem, h, Bool.false_eq_true, if_false]
      simp [treeTextItems, treeTextItem, joinEnumFrom,
        runText_eq_nil_of_not_hasT (by simpa using h)]
  | ins i a d ch =>
    simp only [rtrItem, textRunsItem]
    have hshell : treeTextItems runText [Item.ins i a d (rtrItems f ch c).1]
        = treeTextItems runText (rtrItems f ch c).1 := by
      simp [treeTextItems, treeTextItem]
    rw [hshell]
    exact rtr_text_items f ch c
  | del i a d ch =>
    simp only [rtrItem, textRunsItem]
    have hshell : treeTextItems runText [Item.del i a d (rtrItems f ch c).1]
        = treeTextItems runText (rtrItems f ch c).1 := by
      simp [treeTextItems, treeTextItem]
    rw [hshell]
    exact rtr_text_items f ch c
  | hyper rid ch =>
    simp only [rtrItem, textRunsItem]
    have hshell : treeTextItems runText [Item.hyper rid (rtrItems f ch c).1]
        = treeTextItems runText (rtrItems f ch c).1 := by
      simp [treeTextItems, treeTextItem]
    rw [hshell]
    exact rtr_text_items f ch c
  | crStart i => simp [rtrItem, textRunsItem, treeTextItems, treeTextItem, joinEnumFrom]
  | crEnd i => simp [rtrItem, textRunsItem, treeTextItems, treeTextItem, joinEnumFrom]
  | crRef i => simp [rtrItem, textRunsItem, treeTextItems, treeTextItem, joinEnumFrom]
  | other i => simp [rtrItem, textRunsItem, treeTextItems, treeTextItem, joinEnumFrom]

theorem rtr_text_items (f : Nat → Run → List Item) (l : List Item) (c : Nat) :
    treeTextItems runText (rtrItems f l c).1
      = joinEnumFrom (fun k r => treeTextItems runText (f k r)) (textRunsItems l) c := by
  cases l with
  | nil => simp [rtrItems, textRunsItems, treeTextItems, joinEnumFrom]
  | cons it rest =>
    simp only [rtrItems, textRunsItems]
    rw [treeTextItems_append, joinEnumFrom_append]
    rw [rtr_text_item f it c, rtr_text_items f rest (rtrItem f it c).2, rtrItem_counter]
end

mutual
/-- Substitution, full-text form (`<w:t>` plus `<w:delText>`), for a
delText-free input tree. -/
theorem rtr_alltext_item (f : Nat → Run → List Item) (it : Item) (c : Nat)
    (hnd : noDelTextItem it = true) :
    treeTextItems runAllText (rtrItem f it c).1
      = joinEnumFrom (fun k r => treeTextItems runAllText (f k r)) (textRunsItem it) c := by
  cases it with
  | run r =>
    by_cases h : r.hasT
    · simp [rtrItem, textRunsItem, h, joinEnumFrom, treeTextItems]
    · simp only [rtrItem, textRunsItem, h, Bool.false_eq_true, if_false]
      have hr : noDelTextRun r = true := by simpa [noDelTextItem] using hnd
      simp [treeTextItems, treeTextItem, joinEnumFrom,
        runAllText_eq_nil_of_not_hasT (by simpa using h) hr]
  | ins i a d ch =>
    simp only [rtrItem, textRunsItem]
    have hch : noDelTextItems ch = true := by simpa [noDelTextItem] using hnd
    have hshell : treeTextItems runAllText [Item.ins i a d (rtrItems f ch c).1]
        = treeTextItems runAllText (rtrItems f ch c).1 := by
      simp [treeTextItems, treeTextItem]
    rw [hshell]
    exact rtr_alltext_items f ch c hch
  | del i a d ch =>
    simp only [rtrItem, textRunsItem]
    have hch : noDelTextItems ch = true := by simpa [noDelTextItem] using hnd
    have hshell : treeTextItems runAllText [Item.del i a d (rtrItems f ch c).1]
        = treeTextItems runAllText (rtrItems f ch c).1 := by
      simp [treeTextItems, treeTextItem]
    rw [hshell]
    exact rtr_alltext_items f ch c hch
  | hyper rid ch =>
    simp only [rtrItem, textRunsItem]
    have hch : noDelTextItems ch = true := by simpa [noDelTextItem] using hnd
    have hshell : treeTextItems runAllText [Item.hyper rid (rtrItems f ch c).1]
        = treeTextItems runAllText (rtrItems f ch c).1 := by
      simp [treeTextItems, treeTextItem]
    rw [hshell]
    exact rtr_alltext_items f ch c hch
  | crStart i => simp [rtrItem, textRunsItem, treeTextItems, treeTextItem, joinEnumFrom]
  | crEnd i => simp [rtrItem, textRunsItem, treeTextItems, treeTextItem, joinEnumFrom]
  | crRef i => simp [rtrItem, textRunsItem, treeTextItems, treeTextItem, joinEnumFrom]
  | other i => simp [rtrItem, textRunsItem, treeTextItems, treeTextItem, joinEnumFrom]

theorem rtr_alltext_items (f : Nat → Run → List Item) (l : List Item) (c : Nat)
    (hnd : noDelTextItems l = true) :
    treeTextItems runAllText (rtrItems f l c).1
      = joinEnumFrom (fun k r => treeTextItems runAllText (f k r)) (textRunsItems l) c := by
  cases l with
  | nil => simp [rtrItems, textRunsItems, treeTextItems, joinEnumFrom]
  | cons it rest =>
    simp only [noDelTextItems, Bool.and_eq_true] at hnd
    simp only [rtrItems, textRunsItems]
    rw [treeTextItems_append, joinEnumFrom_append]
    rw [rtr_alltext_item f it c hnd.1, rtr_alltext_items f rest (rtrItem f it c).2 hnd.2,
      rtrItem_counter]
end

mutual
/-- The `<w:t>` text of an item is the joined text of its text runs. -/
theorem treeText_item_eq_joined (it : Item) :
    treeTextItem runText it = joinedRunText (textRunsItem it) := by
  cases it with
  | run r =>
    by_cases h : r.hasT
    · simp [treeTextItem, textRunsItem, h, joinedRunText]
    · simp [treeTextItem, textRunsItem, h, joinedRunText,
        runText_eq_nil_of_not_hasT (by simpa using h)]
  | ins i a d ch => simpa [treeTextItem, textRunsItem] using treeText_items_eq_joined ch
  | del i a d ch => simpa [treeTextItem, textRunsItem] using treeText_items_eq_joined ch
  | hyper rid ch => simpa [treeTextItem, textRunsItem] using treeText_items_eq_joined ch
  | crStart i => simp [treeTextItem, textRunsItem, joinedRunText]
  | crEnd i => simp [treeTextItem, textRunsItem, joinedRunText]
  | crRef i => simp [treeTextItem, textRunsItem, joinedRunText]
  | other i => simp [treeTextItem, textRunsItem, joinedRunText]

theorem treeText_items_eq_joined (l : List Item) :
    treeTextItems runText l = joinedRunText (textRunsItems l) := by
  cases l with
  | nil => simp [treeTextItems, textRunsItems, joinedRunText]
  | cons it rest =>
    simp only [treeTextItems, textRunsItems]
    rw [treeText_item_eq_joined it, treeText_items_eq_joined rest]
    simp [joinedRunText]
end

/-- `_paragraph_text` equals the joined text of the text-bearing runs. -/
theorem plainText_eq_joined (p : Para) : plainText p = joinedRunText (textRuns p) :=
  treeText_items_eq_joined p

mutual
/-- For a delText-free tree, full text equals `<w:t>` text. -/
theorem alltext_item_eq_text (it : Item) (hnd : noDelTextItem it = true) :
    treeTextItem runAllText it = treeTextItem runText it := by
  cases it with
  | run r =>
    have hr : noDelTextRun r = true := by simpa [noDelTextItem] using hnd
    simp [treeTextItem, runAllText_eq_runText hr]
  | ins i a d ch =>
    have hch : noDelTextItems ch = true := by simpa [noDelTextItem] using hnd
    simpa [treeTextItem] using alltext_items_eq_text ch hch
  | del i a d ch =>
    have hch : noDelTextItems ch = true := by simpa [noDelTextItem] using hnd
    simpa [treeTextItem] using alltext_items_eq_text ch hch
  | hyper rid ch =>
    have hch : noDelTextItems ch = true := by simpa [noDelTextItem] using hnd
    simpa [treeTextItem] using alltext_items_eq_text ch hch
  | crStart i => simp [treeTextItem]
  | crEnd i => simp [treeTextItem]
  | crRef i => simp [treeTextItem]
  | other i => simp [treeTextItem]

theorem alltext_items_eq_text (l : List Item) (hnd : noDelTextItems l = true) :
    treeTextItems runAllText l = treeTextItems runText l := by
  cases l with
  | nil => simp [treeTextItems]
  | cons it rest =>
    simp only [noDelTextItems, Bool.and_eq_true] at hnd
    simp only [treeTextItems]
    rw [alltext_item_eq_text it hnd.1, alltext_items_eq_text rest hnd.2]
end

theorem fullTreeText_eq_joined (p : Para) (hnd : noDelTextItems p = true) :
    fullTreeText p = joinedRunText (textRuns p) := by
  unfold fullTreeText
  rw [alltext_items_eq_text p hnd]
  exact treeText_items_eq_joined p

/-! ### Evaluating the enumeration for concrete replacement shapes -/

theorem joinEnumFrom_congr (h1 h2 : Nat → Run → Str) (runs : List Run) (c : Nat)
    (hp : ∀ j, j < runs.length → h1 (c + j) (runs.getD j dfltRun) = h2 (c + j) (runs.getD j dfltRun)) :
    joinEnumFrom h1 runs c = joinEnumFrom h2 runs c := by
  induction runs generalizing c with
  | nil => rfl
  | cons r rest ih =>
    simp only [joinEnumFrom]
    have h0 := hp 0 (by simp)
    simp only [Nat.add_zero, List.getD_cons_zero] at h0
    rw [h0]
    congr 1
    refine ih (c + 1) (fun j hj => ?_)
    have := hp (j + 1) (by simpa using Nat.succ_lt_succ hj)
    have harith : c + (j + 1) = c + 1 + j := by omega
    rw [harith] at this
    simpa using this

theorem joinEnumFrom_const (g : Run → Str) (runs : List Run) (c : Nat) :
    joinEnumFrom (fun _ r => g r) runs c = (runs.map g).flatten := by
  induction runs generalizing c with
  | nil => rfl
  | cons r rest ih => simp [joinEnumFrom, ih]

theorem joinEnumFrom_after (X : Str) (lo hi : Nat) (runs : List Run) (c : Nat)
    (hc : lo < c) :
    joinEnumFrom (fun k r => if k = lo then X else if lo < k ∧ k ≤ hi then [] else runText r) runs c
      = joinedRunText (runs.drop (hi + 1 - c)) := by
  induction runs generalizing c with
  | nil => simp [joinEnumFrom, joinedRunText]
  | cons r rest ih =>
    simp only [joinEnumFrom]
    have hne : ¬ (c = lo) := by omega
    rw [if_neg hne]
    by_cases hhi : c ≤ hi
    · rw [if_pos ⟨hc, hhi⟩, List.nil_append]
      rw [ih (c + 1) (by omega)]
      have hd : (r :: rest).drop (hi + 1 - c) = rest.drop (hi + 1 - (c + 1)) := by
        have h1 : hi + 1 - c = (hi + 1 - (c + 1)) + 1 := by omega
        rw [h1, List.drop_succ_cons]
      rw [hd]
    · rw [if_neg (by omega)]
      rw [ih (c + 1) (by omega)]
      have hd1 : (r :: rest).drop (hi + 1 - c) = r :: rest := by
        have h1 : hi + 1 - c = 0 := by omega
        rw [h1, List.drop_zero]
      have hd2 : rest.drop (hi + 1 - (c + 1)) = rest := by
        have h1 : hi + 1 - (c + 1) = 0 := by omega
        rw [h1, List.drop_zero]
      rw [hd1, hd2, joinedRunText_cons]

theorem joinEnumFrom_splice (X : Str) (lo hi : Nat) (runs : List Run) (c : Nat)
    (hclo : c ≤ lo) (hlohi : lo ≤ hi) :
    joinEnumFrom (fun k r => if k = lo then X else if lo < k ∧ k ≤ hi then [] else runText r) runs c
      = joinedRunText (runs.take (lo - c)) ++ X ++ joinedRunText (runs.drop (hi + 1 - c))
      ∨ runs.length ≤ lo - c := by
  induction runs generalizing c with
  | nil => right; simp
  | cons r rest ih =>
    by_cases hceq : c = lo
    · left
      subst hceq
      simp only [joinEnumFrom, eq_self_iff_true, if_true]
      rw [joinEnumFrom_after X c hi rest (c + 1) (by omega)]
      have ht : (r :: rest).take (c - c) = [] := by
        have h1 : c - c = 0 := by omega
        rw [h1, List.take_zero]
      have hd : (r :: rest).drop (hi + 1 - c) = rest.drop (hi + 1 - (c + 1)) := by
        have h1 : hi + 1 - c = (hi + 1 - (c + 1)) + 1 := by omega
        rw [h1, List.drop_succ_cons]
      rw [ht, hd]
      simp [joinedRunText]
    · have hclt : c < lo := by omega
      simp only [joinEnumFrom]
      show (if c = lo then X else if lo < c ∧ c ≤ hi then [] else runText r) ++ _ = _ ∨ _
      rw [if_neg hceq, if_neg (by omega)]
      rcases ih (c + 1) (by omega) with h | h
      · left
        rw [h]
        have ht : (r :: rest).take (lo - c) = r :: rest.take (lo - (c + 1)) := by
          have h1 : lo - c = (lo - (c + 1)) + 1 := by omega
          rw [h1, List.take_succ_cons]
        have hd : (r :: rest).drop (hi + 1 - c) = rest.drop (hi + 1 - (c + 1)) := by
          have h1 : hi + 1 - c = (hi + 1 - (c + 1)) + 1 := by omega
          rw [h1, List.drop_succ_cons]
        rw [ht, hd, joinedRunText_cons]
        simp [List.append_assoc]
      · right
        simp only [List.length_cons]
        omega

/-! ### Bridging the indexer's result to the decomposition lemmas -/

theorem pyGet_natCast (l : List (Nat × Nat)) (n : Nat) : pyGet l (n : Int) = l.get? n := by
  unfold pyGet
  rw [if_neg (by omega)]
  have ht : ((n : Int)).toNat = n := by omega
  rw [ht]

theorem pyGet_end_index (l : List (Nat × Nat)) (pos slen : Nat) (h : 1 ≤ slen) :
    pyGet l ((pos : Int) + slen - 1) = l.get? (pos + slen - 1) := by
  unfold pyGet
  rw [if_neg (by omega)]
  have ht : ((pos : Int) + slen - 1).toNat = pos + slen - 1 := by omega
  rw [ht]

theorem buildMatch_headD (runs : List Run) (sri sci eri eci : Nat) (h : sri ≤ eri)
    (d : Nat × Nat × Nat) :
    (buildMatch runs sri sci eri eci).headD d
      = (sri, sci, if sri = eri then eci + 1
          else (runText (runs.getD sri dfltRun)).length) := by
  unfold buildMatch
  have hn : eri + 1 - sri = (eri - sri) + 1 := by omega
  rw [hn, List.range_succ_eq_map]
  simp

theorem buildMatch_getLastD (runs : List Run) (sri sci eri eci : Nat) (h : sri ≤ eri)
    (d : Nat × Nat × Nat) :
    (buildMatch runs sri sci eri eci).getLastD d
      = (eri, if eri = sri then sci else 0, eci + 1) := by
  unfold buildMatch
  have hn : eri + 1 - sri = (eri - sri) + 1 := by omega
  rw [hn, List.range_succ, List.map_append]
  simp only [List.map_cons, List.map_nil, List.getLastD_concat]
  have he : sri + (eri - sri) = eri := by omega
  rw [he, if_pos rfl]

theorem buildMatch_ne_nil (runs : List Run) (sri sci eri eci : Nat) (h : sri ≤ eri) :
    buildMatch runs sri sci eri eci ≠ [] := by
  unfold buildMatch
  have hn : eri + 1 - sri = (eri - sri) + 1 := by omega
  rw [hn, List.range_succ_eq_map]
  simp

theorem buildMatch_mem_lt (runs : List Run) (sri sci eri eci : Nat)
    (t : Nat × Nat × Nat) (ht : t ∈ buildMatch runs sri sci eri eci) :
    sri ≤ t.1 ∧ t.1 ≤ eri := by
  unfold buildMatch at ht
  obtain ⟨k, hk, hkt⟩ := List.mem_map.1 ht
  rw [List.mem_range] at hk
  subst hkt
  constructor
  · simp
  · simp only []
    omega

/-- Unpacking a successful `_find_text_in_paragraph` call. -/
theorem findText_spec (p : Para) (s : Str) (m : List (Nat × Nat × Nat)) (hs : s ≠ [])
    (h : findTextInParagraph p s = some m) :
    ∃ pos sri sci eri eci,
      strFind s (joinedRunText (textRuns p)) = some pos ∧
      occursAt s (joinedRunText (textRuns p)) pos ∧
      (∀ j < pos, ¬ occursAt s (joinedRunText (textRuns p)) j) ∧
      (charMap (textRuns p)).get? pos = some (sri, sci) ∧
      (charMap (textRuns p)).get? (pos + s.length - 1) = some (eri, eci) ∧
      m = buildMatch (textRuns p) sri sci eri eci := by
  unfold findTextInParagraph at h
  by_cases hre : (textRuns p).isEmpty
  · simp [hre] at h
  · simp only [hre, Bool.false_eq_true, if_false] at h
    split at h
    next hfind => simp at h
    next pos hfind =>
      have hs1 : 1 ≤ s.length := List.length_pos.2 hs
      obtain ⟨hocc, hmin⟩ := strFind_some s _ pos hfind
      split at h
      next sri sci eri eci hq1 hq2 =>
        simp only [Option.some.injEq] at h
        rw [pyGet_natCast] at hq1
        rw [pyGet_end_index _ _ _ hs1] at hq2
        exact ⟨pos, sri, sci, eri, eci, hfind, hocc, hmin, hq1, hq2, h.symm⟩
      next hq =>
        simp at h

/-! ### The tracked-deletion splice (`track_delete_in_doc`, single match) -/

/-- One iteration of the `while True` loop of `track_delete_in_doc`,
given the match `m` found by `_find_text_in_paragraph`: build the
`<w:del>` wrapper (run with `<w:delText>`), and splice
`[before-run?, del, after-run?]` in place of the matched runs. -/
def trackDeleteSplice (p : Para) (text : Str) (m : List (Nat × Nat × Nat))
    (nid : Int) (author timestamp : Str) : Para :=
  let runs := textRuns p
  let first := m.headD (0, 0, 0)
  let last := m.getLastD (0, 0, 0)
  let firstRun := runs.getD first.1 dfltRun
  let lastRun := runs.getD last.1 dfltRun
  let rpr := firstRun.rpr
  let delElem : Item := .del (intToStr nid) author timestamp [.run (mkRun text rpr true)]
  let beforeText := (runText firstRun).take first.2.1
  let afterText := (runText lastRun).drop last.2.2
  let afterRpr := if last.1 ≠ first.1 then lastRun.rpr else rpr
  let afterRpr2 := match afterRpr with | none => rpr | some x => some x
  let newItems : List Item :=
    (if beforeText ≠ [] then [.run (mkRun beforeText rpr false)] else [])
      ++ [delElem]
      ++ (if afterText ≠ [] then [.run (mkRun afterText afterRpr2 false)] else [])
  (rtrItems (fun k r =>
    if k = first.1 then newItems
    else if first.1 < k ∧ k ≤ last.1 then []
    else [.run r]) p 0).1

theorem mkRun_allText (t : Str) (rpr : Option Nat) (b : Bool) :
    runAllText (mkRun t rpr b) = t := by
  cases b <;> simp [mkRun, runAllText]

theorem mkRun_text_notDel (t : Str) (rpr : Option Nat) :
    runText (mkRun t rpr false) = t := by
  simp [mkRun, runText]

theorem mkRun_hasT (t : Str) (rpr : Option Nat) : (mkRun t rpr false).hasT = true := by
  simp [mkRun, Run.hasT]

mutual
theorem noDelTextRun_of_mem_item (r : Run) (it : Item)
    (hm : r ∈ textRunsItem it) (hnd : noDelTextItem it = true) :
    noDelTextRun r = true := by
  cases it with
  | run r2 =>
    by_cases h : r2.hasT
    · simp only [textRunsItem, h, if_true, List.mem_singleton] at hm
      subst hm
      simpa [noDelTextItem] using hnd
    · simp [textRunsItem, h] at hm
  | ins i a d ch =>
    exact noDelTextRun_of_mem_items r ch (by simpa [textRunsItem] using hm)
      (by simpa [noDelTextItem] using hnd)
  | del i a d ch =>
    exact noDelTextRun_of_mem_items r ch (by simpa [textRunsItem] using hm)
      (by simpa [noDelTextItem] using hnd)
  | hyper rid ch =>
    exact noDelTextRun_of_mem_items r ch (by simpa [textRunsItem] using hm)
      (by simpa [noDelTextItem] using hnd)
  | crStart i => simp [textRunsItem] at hm
  | crEnd i => simp [textRunsItem] at hm
  | crRef i => simp [textRunsItem] at hm
  | other i => simp [textRunsItem] at hm

theorem noDelTextRun_of_mem_items (r : Run) (l : List Item)
    (hm : r ∈ textRunsItems l) (hnd : noDelTextItems l = true) :
    noDelTextRun r = true := by
  cases l with
  | nil => simp [textRunsItems] at hm
  | cons it rest =>
    simp only [noDelTextItems, Bool.and_eq_true] at hnd
    simp only [textRunsItems, List.mem_append] at hm
    cases hm with
    | inl h => exact noDelTextRun_of_mem_item r it h hnd.1
    | inr h => exact noDelTextRun_of_mem_items r rest h hnd.2
end

theorem findText_eq_some_of_parts (p : Para) (s : Str) (pos sa sb ea eb : Nat)
    (hs1 : 1 ≤ s.length)
    (hrne : (textRuns p).isEmpty = false)
    (hpos : strFind s (joinedRunText (textRuns p)) = some pos)
    (hq1 : (charMap (textRuns p)).get? pos = some (sa, sb))
    (hq2 : (charMap (textRuns p)).get? (pos + s.length - 1) = some (ea, eb)) :
    findTextInParagraph p s = some (buildMatch (textRuns p) sa sb ea eb) := by
  have hq1a : pyGet (charMap (textRuns p)) (pos : Int) = some (sa, sb) := by
    rw [pyGet_natCast]; exact hq1
  have hq2a : pyGet (charMap (textRuns p)) ((pos : Int) + s.length - 1) = some (ea, eb) := by
    rw [pyGet_end_index _ _ _ hs1]; exact hq2
  simp only [findTextInParagraph, hrne, Bool.false_eq_true, if_false, hpos, hq1a, hq2a]

theorem findText_none_iff (p : Para) (s : Str) (hs : s ≠ []) :
    findTextInParagraph p s = none
      ↔ ¬ ∃ i, occursAt s (joinedRunText (textRuns p)) i := by
  have hs1 : 1 ≤ s.length := List.length_pos.2 hs
  constructor
  · rintro h ⟨i, hi⟩
    have hlen : s.length ≤ (joinedRunText (textRuns p)).length := by
      have := hi.1; omega
    have hrne : (textRuns p).isEmpty = false := by
      cases hr : textRuns p with
      | nil =>
        rw [hr] at hlen
        simp only [joinedRunText, List.map_nil, List.flatten_nil, List.length_nil,
          Nat.le_zero, List.length_eq_zero] at hlen
        exact absurd hlen hs
      | cons a b => simp
    have hfs := strFind_isSome_of_occursAt s _ i hi
    obtain ⟨pos, hpos⟩ := Option.isSome_iff_exists.1 hfs
    obtain ⟨hoccpos, _⟩ := strFind_some s _ pos hpos
    have hposlen : pos + s.length ≤ (joinedRunText (textRuns p)).length := hoccpos.1
    have hcm : (charMap (textRuns p)).length = (joinedRunText (textRuns p)).length :=
      charMapFrom_length _ 0
    have hlt1 : pos < (charMap (textRuns p)).length := by omega
    have hlt2 : pos + s.length - 1 < (charMap (textRuns p)).length := by omega
    obtain ⟨q1, hq1⟩ : ∃ q, (charMap (textRuns p)).get? pos = some q :=
      ⟨_, List.get?_eq_get hlt1⟩
    obtain ⟨q2, hq2⟩ : ∃ q, (charMap (textRuns p)).get? (pos + s.length - 1) = some q :=
      ⟨_, List.get?_eq_get hlt2⟩
    obtain ⟨sa, sb⟩ := q1
    obtain ⟨ea, eb⟩ := q2
    rw [findText_eq_some_of_parts p s pos sa sb ea eb hs1 hrne hpos hq1 hq2] at h
    simp at h
  · intro h
    cases hf : findTextInParagraph p s with
    | none => rfl
    | some m =>
      obtain ⟨pos, sri, sci, eri, eci, _, hocc, _, _, _, _⟩ := findText_spec p s m hs hf
      exact absurd ⟨pos, hocc⟩ h

/-- **C5**: for a non-empty search string, the indexer returns `none`
exactly when the string does not occur in the concatenation of the
paragraph's text-bearing runs; otherwise it returns a non-empty ordered
run-interval whose concatenated selected substrings equal the search
string, all triples referencing text-bearing runs of the paragraph, and
whose global start position is the first occurrence of the string. -/
theorem C5_indexer_first_occurrence (p : Para) (s : Str) (hs : s ≠ []) :
    (findTextInParagraph p s = none
        ↔ ¬ ∃ i, occursAt s (joinedRunText (textRuns p)) i)
    ∧ (∀ m, findTextInParagraph p s = some m →
        m ≠ [] ∧
        matchText (textRuns p) m = s ∧
        (∀ t ∈ m, t.1 < (textRuns p).length) ∧
        ∃ pos, occursAt s (joinedRunText (textRuns p)) pos ∧
          (∀ j < pos, ¬ occursAt s (joinedRunText (textRuns p)) j) ∧
          (joinedRunText ((textRuns p).take (m.headD (0, 0, 0)).1)).length
            + (m.headD (0, 0, 0)).2.1 = pos) := by
  refine ⟨findText_none_iff p s hs, ?_⟩
  intro m hf
  obtain ⟨pos, sri, sci, eri, eci, hfind, hocc, hmin, hq1, hq2, hm⟩ :=
    findText_spec p s m hs hf
  obtain ⟨hle, hlt, hsci, heci, hmt, hglob, hsand⟩ :=
    matchText_spec (textRuns p) s pos hs hocc sri sci eri eci hq1 hq2
  subst hm
  refine ⟨buildMatch_ne_nil _ _ _ _ _ hle, hmt, ?_, pos, hocc, hmin, ?_⟩
  · intro t ht
    have := buildMatch_mem_lt _ _ _ _ _ t ht
    omega
  · rw [buildMatch_headD _ _ _ _ _ hle]
    exact hglob

theorem newItems_allText (before after s2 : Str) (rpr rpr2 : Option Nat)
    (idStr a ts : Str) :
    treeTextItems runAllText
      ((if before ≠ [] then [Item.run (mkRun before rpr false)] else [])
        ++ [Item.del idStr a ts [Item.run (mkRun s2 rpr true)]]
        ++ (if after ≠ [] then [Item.run (mkRun after rpr2 false)] else []))
      = before ++ s2 ++ after := by
  by_cases hb : before = [] <;> by_cases ha : after = [] <;>
    simp [hb, ha, treeTextItems, treeTextItem, treeTextItems_append, mkRun_allText]

/-- Text value of an in-place splice that replaces text run `sri` by new
items and drops text runs `sri+1 … eri`. -/
theorem rtr_splice_alltext (p : Para) (sri sci eri eci : Nat) (s : Str)
    (newItems : List Item)
    (hnd : noDelTextItems p = true)
    (hnew : treeTextItems runAllText newItems
        = (runText ((textRuns p).getD sri dfltRun)).take sci ++ s
          ++ (runText ((textRuns p).getD eri dfltRun)).drop (eci + 1))
    (hle : sri ≤ eri) (hlt : eri < (textRuns p).length)
    (hsand : joinedRunText (textRuns p)
        = joinedRunText ((textRuns p).take sri)
          ++ (runText ((textRuns p).getD sri dfltRun)).take sci
          ++ s ++ (runText ((textRuns p).getD eri dfltRun)).drop (eci + 1)
          ++ joinedRunText ((textRuns p).drop (eri + 1))) :
    treeTextItems runAllText
      ((rtrItems (fun k r => if k = sri then newItems
          else if sri < k ∧ k ≤ eri then [] else [Item.run r]) p 0).1)
      = joinedRunText (textRuns p) := by
  have h1 := rtr_alltext_items (fun k r => if k = sri then newItems
      else if sri < k ∧ k ≤ eri then [] else [Item.run r]) p 0 hnd
  have h2 := joinEnumFrom_congr
      (fun k r => treeTextItems runAllText (if k = sri then newItems
          else if sri < k ∧ k ≤ eri then [] else [Item.run r]))
      (fun k r => if k = sri then treeTextItems runAllText newItems
          else if sri < k ∧ k ≤ eri then [] else runText r)
      (textRuns p) 0 (by
        intro j hj
        simp only []
        by_cases hj1 : 0 + j = sri
        · rw [if_pos hj1, if_pos hj1]
        · rw [if_neg hj1, if_neg hj1]
          by_cases hj2 : sri < 0 + j ∧ 0 + j ≤ eri
          · rw [if_pos hj2, if_pos hj2]
            rfl
          · rw [if_neg hj2, if_neg hj2]
            have hmem : (textRuns p).getD j dfltRun ∈ textRuns p := by
              rw [List.getD_eq_getElem _ _ hj]
              exact List.getElem_mem hj
            have hr := noDelTextRun_of_mem_items _ p hmem hnd
            simp only [treeTextItems, treeTextItem, List.append_nil]
            exact runAllText_eq_runText hr)
  rcases joinEnumFrom_splice (treeTextItems runAllText newItems) sri eri (textRuns p) 0
      (by omega) hle with h3 | h3
  · refine h1.trans (h2.trans ?_)
    rw [h3, hnew]
    conv_rhs => rw [hsand]
    have e1 : sri - 0 = sri := by omega
    have e2 : eri + 1 - 0 = eri + 1 := by omega
    rw [e1, e2]
    simp [List.append_assoc]
  · omega

/-- **C1**: for every delText-free paragraph and search string found in
the paragraph's concatenated run text, the tracked-deletion splice
(remove matched runs, insert before-leftover run, deletion wrapper
holding the matched text, after-leftover run) yields a tree whose
concatenated text content (`<w:t>` plus `<w:delText>`, in document
order, i.e. before-leftover + matched text + after-leftover plus the
untouched runs) equals exactly the paragraph's original concatenated
run text. -/
theorem C1_delete_splice_preserves_text (p : Para) (s : Str) (hs : s ≠ [])
    (hnd : noDelTextItems p = true)
    (m : List (Nat × Nat × Nat)) (hf : findTextInParagraph p s = some m)
    (nid : Int) (author ts : Str) :
    fullTreeText (trackDeleteSplice p s m nid author ts)
      = joinedRunText (textRuns p)
    ∧ fullTreeText p = joinedRunText (textRuns p) := by
  refine ⟨?_, fullTreeText_eq_joined p hnd⟩
  obtain ⟨pos, sri, sci, eri, eci, hfind, hocc, hmin, hq1, hq2, hm⟩ :=
    findText_spec p s m hs hf
  obtain ⟨hle, hlt, hsci, heci, hmt, hglob, hsand⟩ :=
    matchText_spec (textRuns p) s pos hs hocc sri sci eri eci hq1 hq2
  subst hm
  have hhead := buildMatch_headD (textRuns p) sri sci eri eci hle (0, 0, 0)
  have hlast := buildMatch_getLastD (textRuns p) sri sci eri eci hle (0, 0, 0)
  unfold fullTreeText
  simp only [trackDeleteSplice, hhead, hlast]
  exact rtr_splice_alltext p sri sci eri eci s _ hnd
    (newItems_allText _ _ _ _ _ _ _ _) hle hlt hsand

/-- The spec's demonstration paragraph: "The quick brown fox" split
across three runs, the middle one carrying a formatting record. -/
def demoPara : Para :=
  [.run (mkTextRun none (str "The qui")),
   .run (mkTextRun (some 1) (str "ck brown")),
   .run (mkTextRun none (str " fox"))]

theorem C5_indexer_first_occurrence_witness :
    findTextInParagraph demoPara (str "brown") = some [(1, 3, 8)] ∧
    matchText (textRuns demoPara) [(1, 3, 8)] = str "brown" := by
  have h := C5_indexer_first_occurrence demoPara (str "brown") (by decide)
  exact ⟨by decide, (h.2 [(1, 3, 8)] (by decide)).2.1⟩

theorem C1_delete_splice_preserves_text_witness :
    fullTreeText (trackDeleteSplice demoPara (str "brown") [(1, 3, 8)] 7
        (str "A") (str "2026-01-01T00:00:00Z"))
      = joinedRunText (textRuns demoPara) :=
  (C1_delete_splice_preserves_text demoPara (str "brown") (by decide) (by decide)
    [(1, 3, 8)] (by decide) 7 (str "A") (str "2026-01-01T00:00:00Z")).1

/-! ### Document, package and result model -/

mutual
/-- The `w:id` attribute values of an item subtree, as visited by
`root.iter()` during id scans.  Runs carry no `w:id`; the hyperlink
wrapper's `r:id` is a different attribute and is not scanned. -/
def idAttrsItem : Item → List Str
  | .run _ => []
  | .ins i _ _ ch => i :: idAttrsItems ch
  | .del i _ _ ch => i :: idAttrsItems ch
  | .hyper _ ch => idAttrsItems ch
  | .crStart i => [i]
  | .crEnd i => [i]
  | .crRef i => [i]
  | .other (some i) => [i]
  | .other none => []

def idAttrsItems : List Item → List Str
  | [] => []
  | it :: rest => idAttrsItem it ++ idAttrsItems rest
end

/-- Parsed `word/document.xml`: the body's paragraphs (`None` when the
body element is missing) and the `w:id` attributes carried by elements
outside the modelled paragraph content (headers of the body, section
properties, and so on), which the whole-tree id scan also visits. -/
structure Doc where
  body : Option (List Para)
  extraIds : List Str

/-- `_get_paragraphs`: all body paragraphs, `[]` when there is no body. -/
def getParagraphs (d : Doc) : List Para :=
  match d.body with
  | none => []
  | some ps => ps

def setPara (d : Doc) (k : Nat) (p : Para) : Doc :=
  ⟨(d.body).map (fun ps => ps.set k p), d.extraIds⟩

/-- Every `w:id` attribute value in the document tree. -/
def docIdAttrs (d : Doc) : List Str :=
  ((getParagraphs d).map idAttrsItems).flatten ++ d.extraIds

/-- `max(max_id, int(val))` over a list of attribute values, skipping
unparseable ones (`except ValueError: pass`). -/
def maxIdScan (l : List Str) (init : Int) : Int :=
  l.foldl (fun acc v =>
    match parseInt v with
    | some n => max acc n
    | none => acc) init

/-- `_generate_id(root)`: highest parseable `w:id` (floored at 0) plus 1. -/
def generateId (d : Doc) : Int := maxIdScan (docIdAttrs d) 0 + 1

/-- `_get_max_id_in_doc(root)` of the comment writer. -/
def getMaxIdInDoc (d : Doc) : Int := maxIdScan (docIdAttrs d) 0

/-- A record of the side-car comments part (`<w:comment>`): id, author,
date, initials, and the body paragraph's text and `w14:paraId`. -/
structure Comment where
  id : Str
  author : Str
  date : Str
  initials : Str
  text : Str
  paraId : Str

/-- `_get_max_comment_id`: highest parseable comment id, starting at -1. -/
def getMaxCommentId (comments : List Comment) : Int :=
  maxIdScan (comments.map (fun c => c.id)) (-1)

/-- A relationship manifest entry of `word/_rels/document.xml.rels`. -/
structure Rel where
  id : Str
  type : Str
  target : Str
  targetMode : Option Str

/-- A content-type override of `[Content_Types].xml`. -/
structure CTOverride where
  partName : Str
  contentType : Str

/-- The package on disk: the parsed parts the core rewrites, plus `rest`
standing for all other zip entries, which every operation copies
byte-for-byte.  An operation that returns without saving leaves the
whole value unchanged. -/
structure DocxFile where
  doc : Doc
  comments : Option (List Comment)
  rels : Option (List Rel)
  cts : Option (List CTOverride)
  rest : Nat

/-- `_save_document_xml`: rewrite `word/document.xml`, copy the rest. -/
def saveDocumentXml (f : DocxFile) (root : Doc) : DocxFile :=
  ⟨root, f.comments, f.rels, f.cts, f.rest⟩

/-- Structured outcome of an operation (the returned dict): success
flag, error message, operation count (replacements / insertions /
deletions / accepted / rejected), assigned comment id, message. -/
structure OpResult where
  success : Bool
  error : Option Str
  count : Nat
  commentId : Option Int
  message : Str

def failRes (msg : Str) : OpResult := ⟨false, some msg, 0, none, []⟩

def okRes (count : Nat) (msg : Str) : OpResult := ⟨true, none, count, none, msg⟩

/-! ### Accept / reject: filter, counts, transforms -/

/-- `_should_process`: id-set filter (malformed ids excluded), then
author filter. -/
def passesFilter (authorF : Option Str) (idsF : Option (List Int))
    (idV authorV : Str) : Bool :=
  (match idsF with
   | none => true
   | some ids =>
     match parseInt idV with
     | none => false
     | some n => ids.contains n)
  && (match authorF with
      | none => true
      | some a => authorV == a)

mutual
/-- Number of `<w:ins>` wrappers passing the filter, whole subtree. -/
def countInsItem (φ : Str → Str → Bool) : Item → Nat
  | .ins i a _ ch => (if φ i a then 1 else 0) + countInsItems φ ch
  | .del _ _ _ ch => countInsItems φ ch
  | .hyper _ ch => countInsItems φ ch
  | _ => 0

def countInsItems (φ : Str → Str → Bool) : List Item → Nat
  | [] => 0
  | it :: rest => countInsItem φ it + countInsItems φ rest
end

mutual
/-- Number of `<w:del>` wrappers passing the filter, whole subtree. -/
def countDelItem (φ : Str → Str → Bool) : Item → Nat
  | .ins _ _ _ ch => countDelItems φ ch
  | .del i a _ ch => (if φ i a then 1 else 0) + countDelItems φ ch
  | .hyper _ ch => countDelItems φ ch
  | _ => 0

def countDelItems (φ : Str → Str → Bool) : List Item → Nat
  | [] => 0
  | it :: rest => countDelItem φ it + countDelItems φ rest
end

mutual
/-- Accept, first pass: unwrap each passing `<w:ins>` in place
(children promoted, wrapper discarded; nested passing wrappers are
processed when the snapshot iteration reaches them). -/
def insUnwrapItem (φ : Str → Str → Bool) : Item → List Item
  | .ins i a d ch => if φ i a then insUnwrapItems φ ch else [.ins i a d (insUnwrapItems φ ch)]
  | .del i a d ch => [.del i a d (insUnwrapItems φ ch)]
  | .hyper rid ch => [.hyper rid (insUnwrapItems φ ch)]
  | it => [it]

def insUnwrapItems (φ : Str → Str → Bool) : List Item → List Item
  | [] => []
  | it :: rest => insUnwrapItem φ it ++ insUnwrapItems φ rest
end

mutual
/-- Accept, second pass: remove each passing `<w:del>` entirely. -/
def delRemoveItem (φ : Str → Str → Bool) : Item → List Item
  | .del i a d ch => if φ i a then [] else [.del i a d (delRemoveItems φ ch)]
  | .ins i a d ch => [.ins i a d (delRemoveItems φ ch)]
  | .hyper rid ch => [.hyper rid (delRemoveItems φ ch)]
  | it => [it]

def delRemoveItems (φ : Str → Str → Bool) : List Item → List Item
  | [] => []
  | it :: rest => delRemoveItem φ it ++ delRemoveItems φ rest
end

mutual
/-- Reject, first pass: remove each passing `<w:ins>` with its content. -/
def insRemoveItem (φ : Str → Str → Bool) : Item → List Item
  | .ins i a d ch => if φ i a then [] else [.ins i a d (insRemoveItems φ ch)]
  | .del i a d ch => [.del i a d (insRemoveItems φ ch)]
  | .hyper rid ch => [.hyper rid (insRemoveItems φ ch)]
  | it => [it]

def insRemoveItems (φ : Str → Str → Bool) : List Item → List Item
  | [] => []
  | it :: rest => insRemoveItem φ it ++ insRemoveItems φ rest
end

/-- `dt.tag = W("t")` conversion applied over a promoted child's whole
subtree (`child.iter(W("delText"))`). -/
def convertRun (r : Run) : Run :=
  ⟨r.rpr, r.children.map (fun c => match c with | .delTNode s => TChild.tNode s | c => c)⟩

mutual
def convertItem : Item → Item
  | .run r => .run (convertRun r)
  | .ins i a d ch => .ins i a d (convertItems ch)
  | .del i a d ch => .del i a d (convertItems ch)
  | .hyper rid ch => .hyper rid (convertItems ch)
  | it => it

def convertItems : List Item → List Item
  | [] => []
  | it :: rest => convertItem it :: convertItems rest
end

mutual
/-- Reject, second pass: unwrap each passing `<w:del>` in place,
converting `<w:delText>` back to `<w:t>` in the promoted children. -/
def delUnwrapItem (φ : Str → Str → Bool) : Item → List Item
  | .del i a d ch => if φ i a then convertItems (delUnwrapItems φ ch)
      else [.del i a d (delUnwrapItems φ ch)]
  | .ins i a d ch => [.ins i a d (delUnwrapItems φ ch)]
  | .hyper rid ch => [.hyper rid (delUnwrapItems φ ch)]
  | it => [it]

def delUnwrapItems (φ : Str → Str → Bool) : List Item → List Item
  | [] => []
  | it :: rest => delUnwrapItem φ it ++ delUnwrapItems φ rest
end

/-- `accept_tracked_changes_in_doc` (the source's third loop re-scans
for `<w:del>` after all passing ones were removed and always adds 0). -/
def acceptTrackedChangesInDoc (f : DocxFile) (authorF : Option Str)
    (idsF : Option (List Int)) : OpResult × DocxFile :=
  let φ := passesFilter authorF idsF
  let paras := getParagraphs f.doc
  let accepted := (paras.map (fun p => countInsItems φ p + countDelItems φ p)).sum
  if accepted = 0 then
    (⟨true, none, 0, none, str "No matching tracked changes found to accept"⟩, f)
  else
    let root2 : Doc := ⟨(f.doc.body).map (fun ps =>
      ps.map (fun p => delRemoveItems φ (insUnwrapItems φ p))), f.doc.extraIds⟩
    (okRes accepted (str "Accepted tracked change(s)"), saveDocumentXml f root2)

/-- `reject_tracked_changes_in_doc`.  The count follows the source: all
passing insertions (snapshot before removal), then the passing deletions
still in the tree after insertion removal. -/
def rejectTrackedChangesInDoc (f : DocxFile) (authorF : Option Str)
    (idsF : Option (List Int)) : OpResult × DocxFile :=
  let φ := passesFilter authorF idsF
  let paras := getParagraphs f.doc
  let rejected := (paras.map (fun p =>
    countInsItems φ p + countDelItems φ (insRemoveItems φ p))).sum
  if rejected = 0 then
    (⟨true, none, 0, none, str "No matching tracked changes found to reject"⟩, f)
  else
    let root2 : Doc := ⟨(f.doc.body).map (fun ps =>
      ps.map (fun p => delUnwrapItems φ (insRemoveItems φ p))), f.doc.extraIds⟩
    (okRes rejected (str "Rejected tracked change(s)"), saveDocumentXml f root2)

/-! ### Listing tracked changes -/

structure ChangeEntry where
  id : Str
  author : Str
  date : Str
  text : Str
  paragraphContext : Str

mutual
/-- `<w:ins>` entries of a subtree in document order: id, author, date,
concatenated `<w:t>` content, enclosing paragraph context. -/
def insEntriesItem (ctx : Str) : Item → List ChangeEntry
  | .ins i a d ch => ⟨i, a, d, treeTextItems runText ch, ctx⟩ :: insEntriesItems ctx ch
  | .del _ _ _ ch => insEntriesItems ctx ch
  | .hyper _ ch => insEntriesItems ctx ch
  | _ => []

def insEntriesItems (ctx : Str) : List Item → List ChangeEntry
  | [] => []
  | it :: rest => insEntriesItem ctx it ++ insEntriesItems ctx rest
end

mutual
/-- `<w:del>` entries: text from `<w:delText>`, falling back to `<w:t>`
when the wrapper holds no deleted text. -/
def delEntriesItem (ctx : Str) : Item → List ChangeEntry
  | .ins _ _ _ ch => delEntriesItems ctx ch
  | .del i a d ch =>
      let dt := treeTextItems runDelText ch
      let txt := if dt = [] then treeTextItems runText ch else dt
      ⟨i, a, d, txt, ctx⟩ :: delEntriesItems ctx ch
  | .hyper _ ch => delEntriesItems ctx ch
  | _ => []

def delEntriesItems (ctx : Str) : List Item → List ChangeEntry
  | [] => []
  | it :: rest => delEntriesItem ctx it ++ delEntriesItems ctx rest
end

structure ListResult where
  success : Bool
  insertions : List ChangeEntry
  deletions : List ChangeEntry
  totalInsertions : Nat
  totalDeletions : Nat
  totalChanges : Nat

/-- `list_tracked_changes_in_doc`: a pure read — the file value is
returned untouched, no save step exists on any path. -/
def listTrackedChangesInDoc (f : DocxFile) : ListResult × DocxFile :=
  let paras := getParagraphs f.doc
  let inss := (paras.map (fun p => insEntriesItems ((plainText p).take 100) p)).flatten
  let dels := (paras.map (fun p => delEntriesItems ((plainText p).take 100) p)).flatten
  (⟨true, inss, dels, inss.length, dels.length, inss.length + dels.length⟩, f)

/-! ### Tracked replace / insert splices and document-level operations -/

/-- One iteration of the `while True` loop of `track_replace_in_doc`:
deletion wrapper with the old text, insertion wrapper with the new text
(ids `next_id` and `next_id + 1`), spliced in place of the matched runs
with before/after leftovers. -/
def trackReplaceSplice (p : Para) (oldText newText : Str)
    (m : List (Nat × Nat × Nat)) (nid : Int) (author timestamp : Str) : Para :=
  let runs := textRuns p
  let first := m.headD (0, 0, 0)
  let last := m.getLastD (0, 0, 0)
  let firstRun := runs.getD first.1 dfltRun
  let lastRun := runs.getD last.1 dfltRun
  let rpr := firstRun.rpr
  let delElem : Item := .del (intToStr nid) author timestamp [.run (mkRun oldText rpr true)]
  let insElem : Item := .ins (intToStr (nid + 1)) author timestamp
    [.run (mkRun newText rpr false)]
  let beforeText := (runText firstRun).take first.2.1
  let afterText := (runText lastRun).drop last.2.2
  let afterRpr := if last.1 ≠ first.1 then lastRun.rpr else rpr
  let afterRpr2 := match afterRpr with | none => rpr | some x => some x
  let newItems : List Item :=
    (if beforeText ≠ [] then [.run (mkRun beforeText rpr false)] else [])
      ++ [delElem, insElem]
      ++ (if afterText ≠ [] then [.run (mkRun afterText afterRpr2 false)] else [])
  (rtrItems (fun k r =>
    if k = first.1 then newItems
    else if first.1 < k ∧ k ≤ last.1 then []
    else [.run r]) p 0).1

/-- `_make_run`'s truncation pattern used by `track_insert_in_doc` and
the comment writer: remove all `<w:t>` children and append a single
whitespace-preserving `<w:t>` with the given text. -/
def truncRun (r : Run) (newText : Str) : Run :=
  ⟨r.rpr, r.children.filter (fun c => match c with | TChild.tNode _ => false | _ => true)
    ++ [TChild.tNode newText]⟩

/-- The splice of `track_insert_in_doc`: formatting is taken from the
**last** matched run; the insertion wrapper goes right after the match,
splitting that run when the match ends mid-run (remainder run carries
the same formatting copy). -/
def trackInsertSplice (p : Para) (insertText : Str)
    (m : List (Nat × Nat × Nat)) (nid : Int) (author timestamp : Str) : Para :=
  let runs := textRuns p
  let last := m.getLastD (0, 0, 0)
  let lastRun := runs.getD last.1 dfltRun
  let rpr := lastRun.rpr
  let lastRunText := runText lastRun
  let insElem : Item := .ins (intToStr nid) author timestamp
    [.run (mkRun insertText rpr false)]
  let afterMatchText := lastRunText.drop last.2.2
  (rtrItems (fun k r =>
    if k = last.1 then
      (if afterMatchText ≠ [] then
        [.run (truncRun lastRun (lastRunText.take last.2.2)), insElem,
         .run (mkRun afterMatchText rpr false)]
      else [.run r, insElem])
    else [.run r]) p 0).1

/-- Index-and-match of the first paragraph (from index `i`) containing
the text. -/
def findFirstPara (paras : List Para) (text : Str) : Nat → Option (Nat × List (Nat × Nat × Nat))
  | i =>
    if h : i < paras.length then
      match findTextInParagraph (paras.getD i []) text with
      | some m => some (i, m)
      | none => findFirstPara paras text (i + 1)
    else none
termination_by i => paras.length - i

/-- The per-paragraph `while True` loop of `track_delete_in_doc`,
re-searching after each splice; `_generate_id` scans the whole current
document each iteration.  Returns the new document and the number of
deletions, or `none` when the fuel runs out. -/
def trackDeleteParaLoop (text author timestamp : Str) :
    Nat → Nat → Doc → Option (Doc × Nat)
  | 0, _, _ => none
  | fuel + 1, k, doc =>
    let p := (getParagraphs doc).getD k []
    match findTextInParagraph p text with
    | none => some (doc, 0)
    | some m =>
      let nid := generateId doc
      let p2 := trackDeleteSplice p text m nid author timestamp
      match trackDeleteParaLoop text author timestamp fuel k (setPara doc k p2) with
      | none => none
      | some (d2, c) => some (d2, c + 1)

/-- The same loop for `track_replace_in_doc` (two ids per iteration). -/
def trackReplaceParaLoop (oldText newText author timestamp : Str) :
    Nat → Nat → Doc → Option (Doc × Nat)
  | 0, _, _ => none
  | fuel + 1, k, doc =>
    let p := (getParagraphs doc).getD k []
    match findTextInParagraph p oldText with
    | none => some (doc, 0)
    | some m =>
      let nid := generateId doc
      let p2 := trackReplaceSplice p oldText newText m nid author timestamp
      match trackReplaceParaLoop oldText newText author timestamp fuel k (setPara doc k p2) with
      | none => none
      | some (d2, c) => some (d2, c + 1)

/-- `for p in _get_paragraphs(root)`: run a per-paragraph step over
paragraph indices `i, i+1, …` (`n` remaining), accumulating counts. -/
def foldParas (step : Nat → Doc → Option (Doc × Nat)) : Nat → Nat → Doc → Option (Doc × Nat)
  | _, 0, doc => some (doc, 0)
  | i, n + 1, doc =>
    match step i doc with
    | none => none
    | some (d2, c) =>
      match foldParas step (i + 1) n d2 with
      | none => none
      | some (d3, c2) => some (d3, c + c2)

/-- `track_delete_in_doc` (fuel bounds each paragraph's while loop). -/
def trackDeleteInDoc (fuel : Nat) (f : DocxFile) (text author timestamp : Str) :
    Option (OpResult × DocxFile) :=
  let root := f.doc
  match foldParas (trackDeleteParaLoop text author timestamp fuel) 0
      (getParagraphs root).length root with
  | none => none
  | some (root2, deletions) =>
    if deletions = 0 then
      some (failRes (str "Text not found: '" ++ text ++ str "'"), f)
    else
      some (okRes deletions
        (str "Marked " ++ natToStr deletions ++ str " occurrence(s) of '" ++ text
          ++ str "' as deleted by " ++ author),
        saveDocumentXml f root2)

/-- `track_replace_in_doc`. -/
def trackReplaceInDoc (fuel : Nat) (f : DocxFile) (oldText newText author timestamp : Str) :
    Option (OpResult × DocxFile) :=
  let root := f.doc
  match foldParas (trackReplaceParaLoop oldText newText author timestamp fuel) 0
      (getParagraphs root).length root with
  | none => none
  | some (root2, replacements) =>
    if replacements = 0 then
      some (failRes (str "Text not found: '" ++ oldText ++ str "'"), f)
    else
      some (okRes replacements
        (str "Replaced " ++ natToStr replacements ++ str " occurrence(s) of '" ++ oldText
          ++ str "' with '" ++ newText ++ str "' as tracked change by " ++ author),
        saveDocumentXml f root2)

/-- `track_insert_in_doc`: only the first occurrence, one insertion. -/
def trackInsertInDoc (f : DocxFile) (afterText insertText author timestamp : Str) :
    OpResult × DocxFile :=
  let root := f.doc
  match findFirstPara (getParagraphs root) afterText 0 with
  | none => (failRes (str "Text not found: '" ++ afterText ++ str "'"), f)
  | some (k, m) =>
    let nid := generateId root
    let p2 := trackInsertSplice ((getParagraphs root).getD k []) insertText m nid
      author timestamp
    (okRes 1 (str "Inserted '" ++ insertText ++ str "' after '" ++ afterText
        ++ str "' as tracked change by " ++ author),
      saveDocumentXml f (setPara root k p2))

/-! ### Comment writer -/

mutual
/-- Tree path of the parent element of each text-bearing run, in
document order (used to model `list(parent).index(last_run)`, which
raises `ValueError` when the first and last matched runs have different
parents); per-item part, at child index `j` under path `here`. -/
def rppItem : Item → List Nat → Nat → List (List Nat)
  | .run r, here, _ => if r.hasT then [here] else []
  | .ins _ _ _ ch, here, j => rppAux ch (here ++ [j]) 0
  | .del _ _ _ ch, here, j => rppAux ch (here ++ [j]) 0
  | .hyper _ ch, here, j => rppAux ch (here ++ [j]) 0
  | _, _, _ => []

def rppAux : List Item → List Nat → Nat → List (List Nat)
  | [], _, _ => []
  | it :: rest, here, j => rppItem it here j ++ rppAux rest here (j + 1)
end

def runParentPaths (p : Para) : List (List Nat) := rppAux p [] 0

def commentsRelType : Str :=
  str "http://schemas.openxmlformats.org/officeDocument/2006/relationships/comments"

def commentsContentType : Str :=
  str "application/vnd.openxmlformats-officedocument.wordprocessingml.comments+xml"

/-- `_has_comments_rel`. -/
def hasCommentsRel (rels : List Rel) : Bool :=
  rels.any (fun r => r.type == commentsRelType)

/-- `_get_next_rid`: next unused numeric `rIdN`. -/
def getNextRid (rels : List Rel) : Int :=
  (rels.foldl (fun acc r =>
    match r.id with
    | 'r' :: 'I' :: 'd' :: restChars =>
      match parseInt restChars with
      | some n => max acc n
      | none => acc
    | _ => acc) 0) + 1

/-- Single-matched-run case of the comment marker injection: optional
first split (when the match starts mid-run), range-start marker, the
match-bearing run (possibly truncated twice, with `effective_end`
rebased when the first split happened), range-end marker, reference
run, optional remainder run. -/
def commentBlockSingle (r : Run) (cidS : Str) (firstStart lastEnd : Nat) : List Item :=
  let t0 := runText r
  let afterTrunc := if firstStart > 0 then t0.drop firstStart else t0
  let eff := if firstStart > 0 then lastEnd - firstStart else lastEnd
  (if firstStart > 0 then [Item.run (mkRun (t0.take firstStart) r.rpr false)] else [])
    ++ [Item.crStart cidS]
    ++ [Item.run (if eff < afterTrunc.length then truncRun r (afterTrunc.take eff)
        else if firstStart > 0 then truncRun r afterTrunc else r)]
    ++ [Item.crEnd cidS, Item.crRef cidS]
    ++ (if eff < afterTrunc.length
        then [Item.run (mkRun (afterTrunc.drop eff) r.rpr false)] else [])

/-- First matched run (multi-run match): optional before-split, then
the range-start marker immediately before the (possibly truncated)
first run. -/
def commentBlockFirst (r : Run) (cidS : Str) (firstStart : Nat) : List Item :=
  let t0 := runText r
  if firstStart > 0 then
    [Item.run (mkRun (t0.take firstStart) r.rpr false), Item.crStart cidS,
     Item.run (truncRun r (t0.drop firstStart))]
  else [Item.crStart cidS, Item.run r]

/-- Last matched run (multi-run match): the (possibly truncated) last
run, range-end marker, reference run, optional remainder run. -/
def commentBlockLast (r : Run) (cidS : Str) (lastEnd : Nat) : List Item :=
  let t0 := runText r
  if lastEnd < t0.length then
    [Item.run (truncRun r (t0.take lastEnd)), Item.crEnd cidS, Item.crRef cidS,
     Item.run (mkRun (t0.drop lastEnd) r.rpr false)]
  else [Item.run r, Item.crEnd cidS, Item.crRef cidS]

/-- Marker injection of `add_comment_to_doc`: split the first matched
run at the match start, split the last matched run at the match end,
insert `commentRangeStart` before the first matched run,
`commentRangeEnd` right after the last matched run, and the
comment-reference run after the range end.  `none` models the
`ValueError` raised by `list(parent).index(last_run)` when the first
and last matched runs have different parents. -/
def commentSplice (p : Para) (m : List (Nat × Nat × Nat)) (cid : Int) : Option Para :=
  let lo := (m.headD (0, 0, 0)).1
  let firstStart := (m.headD (0, 0, 0)).2.1
  let hi := (m.getLastD (0, 0, 0)).1
  let lastEnd := (m.getLastD (0, 0, 0)).2.2
  if (runParentPaths p).getD lo [] ≠ (runParentPaths p).getD hi [] then none
  else
    let cidS := intToStr cid
    some ((rtrItems (fun k r =>
      if lo = hi then
        if k = lo then commentBlockSingle r cidS firstStart lastEnd else [.run r]
      else
        if k = lo then commentBlockFirst r cidS firstStart
        else if k = hi then commentBlockLast r cidS lastEnd
        else [.run r]) p 0).1)

/-- `add_comment_to_doc`: find the target, build the comment record,
splice the markers, patch the relationship manifest and content types
when the comments entries are absent, and write back document, comments
part, and the manifests that were modified. -/
def addCommentToDoc (f : DocxFile) (targetText commentText author initials
    timestamp paraId : Str) : OpResult × DocxFile :=
  match f.doc.body with
  | none => (failRes (str "Document has no body element"), f)
  | some paras =>
    match findFirstPara paras targetText 0 with
    | none =>
      (failRes (str "Target text not found: '" ++ targetText ++ str "'"), f)
    | some (k, m) =>
      let commentsRoot := match f.comments with | some cs => cs | none => []
      let commentId := max (getMaxCommentId commentsRoot) (getMaxIdInDoc f.doc) + 1
      let commentsRoot2 := commentsRoot
        ++ [⟨intToStr commentId, author, timestamp, initials, commentText, paraId⟩]
      match commentSplice (paras.getD k []) m commentId with
      | none => (failRes (str "Unexpected error while inserting comment markers"), f)
      | some p2 =>
        let doc2 := setPara f.doc k p2
        let relsPair : Option (List Rel) × Bool :=
          match f.rels with
          | some rels =>
            if hasCommentsRel rels then (some rels, false)
            else (some (rels ++ [⟨str "rId" ++ intToStr (getNextRid rels),
                commentsRelType, str "comments.xml", none⟩]), true)
          | none => (none, false)
        let ctsPair : Option (List CTOverride) × Bool :=
          match f.cts with
          | some cts =>
            if cts.any (fun o => o.partName == str "/word/comments.xml") then (some cts, false)
            else (some (cts ++ [⟨str "/word/comments.xml", commentsContentType⟩]), true)
          | none => (none, false)
        (⟨true, none, 0, some commentId, str "Added comment by " ++ author⟩,
         ⟨doc2, some commentsRoot2,
          (if relsPair.2 then relsPair.1 else f.rels),
          (if ctsPair.2 then ctsPair.1 else f.cts),
          f.rest⟩)

/-! ### Hyperlink writer -/

def hyperlinkRelType : Str :=
  str "http://schemas.openxmlformats.org/officeDocument/2006/relationships/hyperlink"

/-- The hyperlink run's formatting: the source builds a fresh `rPr` with
the Hyperlink style, blue color and underline, then copies every child
of the original formatting record except color/underline/style.  The
formatting record is opaque to this model, so the derived record is
abstracted as a function of the original one. -/
def hyperRpr (orig : Option Nat) : Option Nat := orig

/-- The splice of `add_hyperlink_to_doc`: remove the matched runs,
insert before-leftover, the hyperlink wrapper containing one run with
the matched text, and after-leftover. -/
def hyperlinkSplice (p : Para) (text : Str) (m : List (Nat × Nat × Nat))
    (rid : Str) : Para :=
  let runs := textRuns p
  let first := m.headD (0, 0, 0)
  let last := m.getLastD (0, 0, 0)
  let firstRun := runs.getD first.1 dfltRun
  let lastRun := runs.getD last.1 dfltRun
  let rpr := firstRun.rpr
  let hyperElem : Item := .hyper rid [.run (mkRun text (hyperRpr rpr) false)]
  let beforeText := (runText firstRun).take first.2.1
  let afterText := (runText lastRun).drop last.2.2
  let afterRpr := if last.1 ≠ first.1 then lastRun.rpr else rpr
  let newItems : List Item :=
    (if beforeText ≠ [] then [.run ⟨rpr, [TChild.tNode beforeText]⟩] else [])
      ++ [hyperElem]
      ++ (if afterText ≠ [] then [.run ⟨afterRpr, [TChild.tNode afterText]⟩] else [])
  (rtrItems (fun k r =>
    if k = first.1 then newItems
    else if first.1 < k ∧ k ≤ last.1 then []
    else [.run r]) p 0).1

/-- `add_hyperlink_to_doc`: out-of-range paragraph index fails before
any search, relationship allocation, or write. -/
def addHyperlinkToDoc (f : DocxFile) (text url : Str)
    (paragraphIndex : Option Int) : OpResult × DocxFile :=
  match f.doc.body with
  | none => (failRes (str "Document has no body element"), f)
  | some paras =>
    let matched : Option (Nat × List (Nat × Nat × Nat)) ⊕ OpResult :=
      match paragraphIndex with
      | some i =>
        if i < 0 ∨ (paras.length : Int) ≤ i then
          Sum.inr (failRes (str "Paragraph index " ++ intToStr i
            ++ str " out of range (0-" ++ intToStr ((paras.length : Int) - 1) ++ str ")"))
        else
          (match findTextInParagraph (paras.getD i.toNat []) text with
           | some m => Sum.inl (some (i.toNat, m))
           | none => Sum.inl none)
      | none => Sum.inl (findFirstPara paras text 0)
    match matched with
    | Sum.inr res => (res, f)
    | Sum.inl none => (failRes (str "Text not found: '" ++ text ++ str "'"), f)
    | Sum.inl (some (k, m)) =>
      match f.rels with
      | none => (failRes (str "Cannot find document.xml.rels"), f)
      | some rels =>
        let rid := str "rId" ++ intToStr (getNextRid rels)
        let rels2 := rels ++ [⟨rid, hyperlinkRelType, url, some (str "External")⟩]
        let p2 := hyperlinkSplice (paras.getD k []) text m rid
        (⟨true, none, 0, none, str "Added hyperlink to '" ++ text ++ str "' pointing to " ++ url⟩,
         ⟨setPara f.doc k p2, f.comments, some rels2, f.cts, f.rest⟩)

/-! ### C9: listing is a pure read -/

/-- **C9**: `list_tracked_changes_in_doc` returns the listing without
any save step on any path, so the file value is returned untouched. -/
theorem C9_list_is_pure_read (f : DocxFile) :
    (listTrackedChangesInDoc f).2 = f
    ∧ (listTrackedChangesInDoc f).1.success = true := by
  constructor <;> rfl

/-! ### C2: freshly allocated ids exceed every id present -/

theorem maxIdScan_cons (w : Str) (rest : List Str) (init : Int) :
    maxIdScan (w :: rest) init
      = maxIdScan rest (match parseInt w with | some k => max init k | none => init) := by
  unfold maxIdScan
  rw [List.foldl_cons]

theorem maxIdScan_ge_init (l : List Str) (init : Int) : init ≤ maxIdScan l init := by
  induction l generalizing init with
  | nil => exact Int.le_refl init
  | cons v rest ih =>
    rw [maxIdScan_cons]
    cases hp : parseInt v with
    | none => simpa only [hp] using ih init
    | some n =>
      simp only [hp]
      exact le_trans (le_max_left init n) (ih (max init n))

theorem maxIdScan_ge_mem (l : List Str) : ∀ (init : Int) (v : Str), v ∈ l →
    ∀ n : Int, parseInt v = some n → n ≤ maxIdScan l init := by
  induction l with
  | nil => intro init v hv; simp at hv
  | cons w rest ih =>
    intro init v hv n hp
    rw [maxIdScan_cons]
    rcases List.mem_cons.1 hv with h | h
    · subst h
      simp only [hp]
      exact le_trans (le_max_right init n) (maxIdScan_ge_init rest _)
    · cases hq : parseInt w with
      | none => simp only [hq]; exact ih init v h n hp
      | some k => simp only [hq]; exact ih (max init k) v h n hp

/-- **C2** (amended): the id allocated by `_generate_id` (used for
insertion and deletion wrappers; track-replace uses it and its
successor) is strictly greater than every numeric `w:id` present in the
document tree at call time, and the comment id
`max(max comment id, max document id) + 1` is strictly greater than
every numeric id in both the document tree and the side-car comments
part.  Wrapper ids are **not** compared against the side-car part:
`_generate_id` never reads `word/comments.xml`, which refutes the
unrestricted claim (see the orphaned side-car id counterexample). -/
theorem C2_new_ids_exceed_existing (d : Doc) (comments : List Comment) :
    (∀ v ∈ docIdAttrs d, ∀ n : Int, parseInt v = some n →
        n < generateId d ∧ n < generateId d + 1)
    ∧ (∀ v ∈ docIdAttrs d, ∀ n : Int, parseInt v = some n →
        n < max (getMaxCommentId comments) (getMaxIdInDoc d) + 1)
    ∧ (∀ c ∈ comments, ∀ n : Int, parseInt c.id = some n →
        n < max (getMaxCommentId comments) (getMaxIdInDoc d) + 1) := by
  refine ⟨?_, ?_, ?_⟩
  · intro v hv n hp
    have h := maxIdScan_ge_mem (docIdAttrs d) 0 v hv n hp
    have h1 : n < generateId d := Int.lt_add_one_iff.2 h
    exact ⟨h1, by omega⟩
  · intro v hv n hp
    have h : n ≤ getMaxIdInDoc d := maxIdScan_ge_mem (docIdAttrs d) 0 v hv n hp
    have h2 : n ≤ max (getMaxCommentId comments) (getMaxIdInDoc d) :=
      le_trans h (le_max_right _ _)
    exact Int.lt_add_one_iff.2 h2
  · intro c hc n hp
    have h : n ≤ getMaxCommentId comments :=
      maxIdScan_ge_mem _ (-1) c.id (List.mem_map_of_mem _ hc) n hp
    have h2 : n ≤ max (getMaxCommentId comments) (getMaxIdInDoc d) :=
      le_trans h (le_max_left _ _)
    exact Int.lt_add_one_iff.2 h2

/-- Demonstration document for witnesses: one paragraph containing an
insertion wrapper with id 5, body-external id attributes 7 and a
malformed one. -/
def demoDoc : Doc :=
  ⟨some [[Item.ins (str "5") (str "A") (str "T") [.run (mkTextRun none (str "hi"))],
         .run (mkTextRun none (str "world"))]],
   [str "7", str "x9"]⟩

theorem C2_new_ids_exceed_existing_witness :
    (str "7") ∈ docIdAttrs demoDoc ∧ parseInt (str "7") = some 7 ∧
    (7 : Int) < generateId demoDoc ∧
    (7 : Int) < max (getMaxCommentId [⟨str "3", str "A", str "T", str "AK",
        str "note", str "00000000"⟩]) (getMaxIdInDoc demoDoc) + 1 := by
  refine ⟨by decide, by decide, ?_, ?_⟩
  · exact ((C2_new_ids_exceed_existing demoDoc []).1 (str "7") (by decide) 7 (by decide)).1
  · exact (C2_new_ids_exceed_existing demoDoc
      [⟨str "3", str "A", str "T", str "AK", str "note", str "00000000"⟩]).2.1
      (str "7") (by decide) 7 (by decide)

/-! ### C7: hyperlink paragraph index bounds -/

/-- **C7**: an out-of-bounds `paragraph_index` (negative or not less
than the number of body paragraphs) makes `add_hyperlink_to_doc` return
a failure whose message names the given index and the valid range
`0 … n-1`, before any search, relationship allocation, or write: the
file value is returned unchanged. -/
theorem C7_hyperlink_index_out_of_range (f : DocxFile) (text url : Str) (i : Int)
    (paras : List Para) (hb : f.doc.body = some paras)
    (hi : i < 0 ∨ (paras.length : Int) ≤ i) :
    addHyperlinkToDoc f text url (some i)
      = (failRes (str "Paragraph index " ++ intToStr i ++ str " out of range (0-"
          ++ intToStr ((paras.length : Int) - 1) ++ str ")"), f) := by
  simp only [addHyperlinkToDoc, hb]
  rw [if_pos hi]

/-- Single-paragraph demonstration package. -/
def demoFile : DocxFile :=
  ⟨⟨some [demoPara], []⟩, none, some [⟨str "rId1",
    str "http://schemas.openxmlformats.org/officeDocument/2006/relationships/styles",
    str "styles.xml", none⟩], some [], 0⟩

theorem C7_hyperlink_index_out_of_range_witness :
    demoFile.doc.body = some [demoPara] ∧
    addHyperlinkToDoc demoFile (str "brown") (str "https://example.com") (some 5)
      = (failRes (str "Paragraph index " ++ intToStr 5 ++ str " out of range (0-"
          ++ intToStr (((1 : Nat) : Int) - 1) ++ str ")"), demoFile) := by
  refine ⟨rfl, ?_⟩
  have h := C7_hyperlink_index_out_of_range demoFile (str "brown")
    (str "https://example.com") 5 [demoPara] rfl (by right; decide)
  simpa using h

/-! ### C6: manifest patching is idempotent -/

/-- **C6**: when the relationship manifest already contains a
comments-type relationship, `add_comment_to_doc` leaves the manifest
exactly as it was (no second entry), and when a content-type override
for `/word/comments.xml` already exists no duplicate override is added;
this holds on every control path of the operation. -/
theorem C6_manifest_patch_idempotent (f : DocxFile)
    (targetText commentText author initials ts pid : Str)
    (rels : List Rel) (hr : f.rels = some rels)
    (hhas : hasCommentsRel rels = true)
    (cts : List CTOverride) (hc : f.cts = some cts)
    (hct : cts.any (fun o => o.partName == str "/word/comments.xml") = true) :
    (addCommentToDoc f targetText commentText author initials ts pid).2.rels = f.rels
    ∧ (addCommentToDoc f targetText commentText author initials ts pid).2.cts = f.cts := by
  cases hb : f.doc.body with
  | none => simp [addCommentToDoc, hb]
  | some paras =>
    cases hf : findFirstPara paras targetText 0 with
    | none => simp [addCommentToDoc, hb, hf]
    | some km =>
      obtain ⟨k, m⟩ := km
      constructor
      · simp only [addCommentToDoc, hb, hf]
        split
        · simp
        · simp [hr, hhas]
      · simp only [addCommentToDoc, hb, hf]
        split
        · simp
        · simp [hc, hct]

/-- Package that already has a comments relationship and override. -/
def demoFileC : DocxFile :=
  ⟨⟨some [demoPara], []⟩, none,
   some [⟨str "rId1", commentsRelType, str "comments.xml", none⟩],
   some [⟨str "/word/comments.xml", commentsContentType⟩], 0⟩

theorem C6_manifest_patch_idempotent_witness :
    demoFileC.rels = some [⟨str "rId1", commentsRelType, str "comments.xml", none⟩] ∧
    (addCommentToDoc demoFileC (str "brown") (str "note") (str "A") (str "AK")
        (str "T") (str "P")).2.rels = demoFileC.rels ∧
    (addCommentToDoc demoFileC (str "brown") (str "note") (str "A") (str "AK")
        (str "T") (str "P")).2.cts = demoFileC.cts := by
  have h := C6_manifest_patch_idempotent demoFileC (str "brown") (str "note") (str "A")
    (str "AK") (str "T") (str "P")
    [⟨str "rId1", commentsRelType, str "comments.xml", none⟩] rfl (by decide)
    [⟨str "/word/comments.xml", commentsContentType⟩] rfl (by decide)
  exact ⟨rfl, h.1, h.2⟩

/-! ### C8: zero-work operations return before the save step -/

theorem findText_nil (s : Str) : findTextInParagraph [] s = none := by
  simp [findTextInParagraph, textRuns, textRunsItems]

theorem foldParas_const (step : Nat → Doc → Option (Doc × Nat)) (doc : Doc)
    (hstep : ∀ k, step k doc = some (doc, 0)) :
    ∀ i n, foldParas step i n doc = some (doc, 0) := by
  intro i n
  induction n generalizing i with
  | zero => rfl
  | succ n ih =>
    unfold foldParas
    rw [hstep i]
    show (match foldParas step (i + 1) n doc with
      | none => none
      | some (d3, c2) => some (d3, 0 + c2)) = some (doc, 0)
    rw [ih (i + 1)]

/-- **C8**: when a tracked-change operation has no work to do — replace
or delete find zero matches, accept or reject match zero wrappers under
the filters — the structured outcome is returned before the save step,
leaving the file value untouched. -/
theorem C8_zero_work_leaves_file_unchanged (f : DocxFile)
    (oldText newText text author ts : Str)
    (authorF : Option Str) (idsF : Option (List Int)) (fuel : Nat) (hfuel : 1 ≤ fuel) :
    ((∀ p ∈ getParagraphs f.doc, findTextInParagraph p oldText = none) →
      trackReplaceInDoc fuel f oldText newText author ts
        = some (failRes (str "Text not found: '" ++ oldText ++ str "'"), f))
    ∧ ((∀ p ∈ getParagraphs f.doc, findTextInParagraph p text = none) →
      trackDeleteInDoc fuel f text author ts
        = some (failRes (str "Text not found: '" ++ text ++ str "'"), f))
    ∧ (((getParagraphs f.doc).map (fun p =>
          countInsItems (passesFilter authorF idsF) p
            + countDelItems (passesFilter authorF idsF) p)).sum = 0 →
      acceptTrackedChangesInDoc f authorF idsF
        = (⟨true, none, 0, none, str "No matching tracked changes found to accept"⟩, f))
    ∧ (((getParagraphs f.doc).map (fun p =>
          countInsItems (passesFilter authorF idsF) p
            + countDelItems (passesFilter authorF idsF)
                (insRemoveItems (passesFilter authorF idsF) p))).sum = 0 →
      rejectTrackedChangesInDoc f authorF idsF
        = (⟨true, none, 0, none, str "No matching tracked changes found to reject"⟩, f)) := by
  obtain ⟨m, rfl⟩ : ∃ m, fuel = m + 1 := ⟨fuel - 1, by omega⟩
  refine ⟨?_, ?_, ?_, ?_⟩
  · intro hnone
    have hk : ∀ k, findTextInParagraph ((getParagraphs f.doc).getD k []) oldText = none := by
      intro k
      by_cases hlt : k < (getParagraphs f.doc).length
      · exact hnone _ (by rw [List.getD_eq_getElem _ _ hlt]; exact List.getElem_mem hlt)
      · rw [List.getD_eq_default _ _ (by omega)]
        exact findText_nil oldText
    have hstep : ∀ k, trackReplaceParaLoop oldText newText author ts (m + 1) k f.doc
        = some (f.doc, 0) := by
      intro k
      simp only [trackReplaceParaLoop]
      rw [hk k]
    simp only [trackReplaceInDoc]
    rw [foldParas_const _ _ hstep 0 (getParagraphs f.doc).length]
    rfl
  · intro hnone
    have hk : ∀ k, findTextInParagraph ((getParagraphs f.doc).getD k []) text = none := by
      intro k
      by_cases hlt : k < (getParagraphs f.doc).length
      · exact hnone _ (by rw [List.getD_eq_getElem _ _ hlt]; exact List.getElem_mem hlt)
      · rw [List.getD_eq_default _ _ (by omega)]
        exact findText_nil text
    have hstep : ∀ k, trackDeleteParaLoop text author ts (m + 1) k f.doc
        = some (f.doc, 0) := by
      intro k
      simp only [trackDeleteParaLoop]
      rw [hk k]
    simp only [trackDeleteInDoc]
    rw [foldParas_const _ _ hstep 0 (getParagraphs f.doc).length]
    rfl
  · intro hz
    simp only [acceptTrackedChangesInDoc]
    rw [hz]
    rfl
  · intro hz
    simp only [rejectTrackedChangesInDoc]
    rw [hz]
    rfl

theorem C8_zero_work_leaves_file_unchanged_witness :
    trackReplaceInDoc 3 demoFile (str "zzz") (str "yyy") (str "A") (str "T")
      = some (failRes (str "Text not found: '" ++ str "zzz" ++ str "'"), demoFile)
    ∧ acceptTrackedChangesInDoc demoFile none none
      = (⟨true, none, 0, none, str "No matching tracked changes found to accept"⟩, demoFile) := by
  have h := C8_zero_work_leaves_file_unchanged demoFile (str "zzz") (str "yyy")
    (str "q") (str "A") (str "T") none none 3 (by omega)
  exact ⟨h.1 (by decide), h.2.2.1 (by decide)⟩

/-! ### C3: adding a comment preserves paragraph plain text -/

theorem filter_no_t_text (l : List TChild) :
    ((l.filter (fun c => match c with | TChild.tNode _ => false | _ => true)).map
      (fun c => match c with | TChild.tNode s => s | _ => [])).flatten = [] := by
  induction l with
  | nil => rfl
  | cons ch rest ih =>
    cases ch with
    | tNode s => simpa [List.filter] using ih
    | delTNode s => simpa [List.filter] using ih
    | otherNode => simpa [List.filter] using ih

theorem truncRun_text (r : Run) (x : Str) : runText (truncRun r x) = x := by
  unfold truncRun runText
  simp only [List.map_append, List.flatten_append, filter_no_t_text, List.nil_append]
  simp

/-- A successful `findFirstPara` yields an in-range index whose
paragraph matches. -/
theorem findFirstPara_spec (paras : List Para) (text : Str) :
    ∀ (i k : Nat) (m : List (Nat × Nat × Nat)),
      findFirstPara paras text i = some (k, m) →
      k < paras.length ∧ findTextInParagraph (paras.getD k []) text = some m := by
  intro i
  generalize hd : paras.length - i = d
  induction d using Nat.strong_induction_on generalizing i with
  | _ d ih =>
    intro k m h
    rw [findFirstPara] at h
    split at h
    next hlt =>
      split at h
      next m2 hfind =>
        obtain ⟨h1, h2⟩ := Prod.mk.inj (Option.some.inj h)
        subst h1
        subst h2
        exact ⟨hlt, hfind⟩
      next hfind =>
        exact ih (paras.length - (i + 1)) (by omega) (i + 1) rfl k m h
    next hlt => simp at h

theorem commentBlockSingle_text (r : Run) (cidS : Str) (a b : Nat) :
    treeTextItems runText (commentBlockSingle r cidS a b) = runText r := by
  unfold commentBlockSingle
  by_cases ha : a > 0
  · simp only [ha, if_true, treeTextItems_append, treeTextItems, treeTextItem,
      List.append_nil, mkRun_text_notDel, List.nil_append]
    by_cases he : b - a < ((runText r).drop a).length
    · simp only [he, if_true, truncRun_text, mkRun_text_notDel, treeTextItems,
        treeTextItem, List.append_nil]
      rw [List.append_assoc, List.take_append_drop, List.take_append_drop]
    · simp only [he, if_false, truncRun_text, treeTextItems, treeTextItem, List.append_nil]
      exact List.take_append_drop a (runText r)
  · simp only [ha, if_false, treeTextItems_append, treeTextItems, treeTextItem,
      List.append_nil, mkRun_text_notDel, List.nil_append]
    by_cases he : b < (runText r).length
    · simp only [he, if_true, truncRun_text, mkRun_text_notDel, treeTextItems,
        treeTextItem, List.append_nil]
      exact List.take_append_drop b (runText r)
    · simp only [he, if_false]
      simp [treeTextItems, treeTextItem]

theorem commentBlockFirst_text (r : Run) (cidS : Str) (a : Nat) :
    treeTextItems runText (commentBlockFirst r cidS a) = runText r := by
  unfold commentBlockFirst
  by_cases ha : a > 0
  · simp only [ha, if_true, treeTextItems, treeTextItem, List.append_nil,
      mkRun_text_notDel, truncRun_text, List.nil_append]
    exact List.take_append_drop a (runText r)
  · simp [ha, treeTextItems, treeTextItem]

theorem commentBlockLast_text (r : Run) (cidS : Str) (b : Nat) :
    treeTextItems runText (commentBlockLast r cidS b) = runText r := by
  unfold commentBlockLast
  by_cases hb : b < (runText r).length
  · simp only [hb, if_true, treeTextItems, treeTextItem, List.append_nil,
      mkRun_text_notDel, truncRun_text, List.nil_append]
    exact List.take_append_drop b (runText r)
  · simp [hb, treeTextItems, treeTextItem]

/-- The comment marker splice never changes the paragraph's plain text. -/
theorem commentSplice_preserves_plainText (p : Para) (m : List (Nat × Nat × Nat))
    (cid : Int) (p2 : Para) (hsp : commentSplice p m cid = some p2) :
    plainText p2 = plainText p := by
  simp only [commentSplice] at hsp
  split at hsp
  · exact absurd hsp (by simp)
  · have hp2 : p2 = (rtrItems (fun k r =>
        if (m.headD (0, 0, 0)).1 = (m.getLastD (0, 0, 0)).1 then
          if k = (m.headD (0, 0, 0)).1 then
            commentBlockSingle r (intToStr cid) (m.headD (0, 0, 0)).2.1 (m.getLastD (0, 0, 0)).2.2
          else [.run r]
        else
          if k = (m.headD (0, 0, 0)).1 then
            commentBlockFirst r (intToStr cid) (m.headD (0, 0, 0)).2.1
          else if k = (m.getLastD (0, 0, 0)).1 then
            commentBlockLast r (intToStr cid) (m.getLastD (0, 0, 0)).2.2
          else [.run r]) p 0).1 := (Option.some.inj hsp).symm
    subst hp2
    rw [plainText]
    refine ((rtr_text_items _ p 0).trans ?_).trans (plainText_eq_joined p).symm
    refine (joinEnumFrom_congr _ (fun _ r => runText r) (textRuns p) 0 ?_).trans
      (joinEnumFrom_const runText (textRuns p) 0)
    intro j hj
    simp only []
    by_cases hEQ : (m.headD (0, 0, 0)).1 = (m.getLastD (0, 0, 0)).1
    · rw [if_pos hEQ]
      by_cases hjlo : 0 + j = (m.headD (0, 0, 0)).1
      · rw [if_pos hjlo]
        exact commentBlockSingle_text _ _ _ _
      · rw [if_neg hjlo]
        simp [treeTextItems, treeTextItem]
    · rw [if_neg hEQ]
      by_cases hjlo : 0 + j = (m.headD (0, 0, 0)).1
      · rw [if_pos hjlo]
        exact commentBlockFirst_text _ _ _
      · rw [if_neg hjlo]
        by_cases hjhi : 0 + j = (m.getLastD (0, 0, 0)).1
        · rw [if_pos hjhi]
          exact commentBlockLast_text _ _ _
        · rw [if_neg hjhi]
          simp [treeTextItems, treeTextItem]

theorem getD_set (l : List Para) (k j : Nat) (x : Para) :
    (l.set k x).getD j [] = if j = k ∧ k < l.length then x else l.getD j [] := by
  induction l generalizing k j with
  | nil => simp [List.set]
  | cons h t ih =>
    cases k with
    | zero =>
      cases j with
      | zero => simp
      | succ j2 => simp
    | succ k2 =>
      cases j with
      | zero => simp
      | succ j2 =>
        simp only [List.set, List.getD_cons_succ, ih, List.length_cons]
        by_cases hc : j2 = k2 ∧ k2 < t.length
        · rw [if_pos hc, if_pos (by omega)]
        · rw [if_neg hc, if_neg (by omega)]

/-- **C3**: a successful `add_comment_to_doc` leaves the concatenated
`<w:t>` plain text of every body paragraph — in particular the one
containing the match — exactly as it was: the markers and the reference
run carry no text, and the run splits preserve every character. -/
theorem C3_add_comment_preserves_plain_text (f : DocxFile)
    (targetText commentText author initials ts pid : Str)
    (hsucc : (addCommentToDoc f targetText commentText author initials ts pid).1.success
      = true) :
    ∀ j, plainText ((getParagraphs
        (addCommentToDoc f targetText commentText author initials ts pid).2.doc).getD j [])
      = plainText ((getParagraphs f.doc).getD j []) := by
  cases hb : f.doc.body with
  | none =>
    exfalso
    simp [addCommentToDoc, hb, failRes] at hsucc
  | some paras =>
    cases hf : findFirstPara paras targetText 0 with
    | none =>
      exfalso
      simp [addCommentToDoc, hb, hf, failRes] at hsucc
    | some km =>
      obtain ⟨k, m⟩ := km
      obtain ⟨hk, hfind⟩ := findFirstPara_spec paras targetText 0 k m hf
      simp only [addCommentToDoc, hb, hf] at hsucc ⊢
      split at hsucc
      next heqsp =>
        simp [failRes] at hsucc
      next p2 heqsp =>
        simp only [heqsp]
        intro j
        have hparas : getParagraphs f.doc = paras := by simp [getParagraphs, hb]
        have hset : getParagraphs (setPara f.doc k p2) = paras.set k p2 := by
          simp [getParagraphs, setPara, hb]
        rw [hset, hparas, getD_set]
        by_cases hjk : j = k
        · subst hjk
          rw [if_pos ⟨rfl, hk⟩]
          exact commentSplice_preserves_plainText _ _ _ _ heqsp
        · rw [if_neg (by tauto)]

theorem C3_add_comment_preserves_plain_text_witness :
    (addCommentToDoc demoFile (str "brown") (str "note") (str "A") (str "AK")
        (str "T") (str "P")).1.success = true ∧
    plainText ((getParagraphs (addCommentToDoc demoFile (str "brown") (str "note")
        (str "A") (str "AK") (str "T") (str "P")).2.doc).getD 0 [])
      = plainText ((getParagraphs demoFile.doc).getD 0 []) := by
  have hf : findFirstPara [demoPara] (str "brown") 0 = some (0, [(1, 3, 8)]) := by
    rw [findFirstPara]
    decide
  have hsucc : (addCommentToDoc demoFile (str "brown") (str "note") (str "A")
      (str "AK") (str "T") (str "P")).1.success = true := by
    simp only [addCommentToDoc, demoFile, hf]
    decide
  exact ⟨hsucc, C3_add_comment_preserves_plain_text demoFile (str "brown")
    (str "note") (str "A") (str "AK") (str "T") (str "P") hsucc 0⟩

/-! ### Containment in an item tree -/

mutual
/-- `x` occurs in the subtree of `it`: as `it` itself, or nested inside
a wrapper's children. -/
def inItem (x : Item) : Item → Prop
  | .ins i a d ch => x = .ins i a d ch ∨ inItems x ch
  | .del i a d ch => x = .del i a d ch ∨ inItems x ch
  | .hyper rid ch => x = .hyper rid ch ∨ inItems x ch
  | it => x = it

def inItems (x : Item) : List Item → Prop
  | [] => False
  | it :: rest => inItem x it ∨ inItems x rest
end

theorem inItem_self (it : Item) : inItem it it := by
  cases it <;> simp [inItem]

theorem mem_inItems {x : Item} {l : List Item} (h : x ∈ l) : inItems x l := by
  induction l with
  | nil => cases h
  | cons it rest ih =>
    cases h with
    | head => exact Or.inl (inItem_self x)
    | tail _ ht => exact Or.inr (ih ht)

theorem inItems_append (x : Item) (a b : List Item) :
    inItems x (a ++ b) ↔ inItems x a ∨ inItems x b := by
  induction a with
  | nil => simp [inItems]
  | cons it rest ih => simp [inItems, ih, or_assoc]

/-! ### Bounds and monotonicity of the character map -/

theorem charMapFrom_fst_ge (runs : List Run) (b pos ri ci : Nat)
    (h : (charMapFrom runs b).get? pos = some (ri, ci)) : b ≤ ri := by
  induction runs generalizing b pos with
  | nil => simp [charMapFrom] at h
  | cons r rest ih =>
    by_cases hlt : pos < (runText r).length
    · rw [charMapFrom_get_head rest b pos hlt] at h
      obtain ⟨h1, h2⟩ := Prod.mk.inj (Option.some.inj h)
      omega
    · rw [charMapFrom_get_tail rest b pos (by omega)] at h
      have := ih (b + 1) _ h
      omega

theorem charMapFrom_fst_lt (runs : List Run) (b pos ri ci : Nat)
    (h : (charMapFrom runs b).get? pos = some (ri, ci)) : ri < b + runs.length := by
  induction runs generalizing b pos with
  | nil => simp [charMapFrom] at h
  | cons r rest ih =>
    by_cases hlt : pos < (runText r).length
    · rw [charMapFrom_get_head rest b pos hlt] at h
      obtain ⟨h1, h2⟩ := Prod.mk.inj (Option.some.inj h)
      simp only [List.length_cons]
      omega
    · rw [charMapFrom_get_tail rest b pos (by omega)] at h
      have := ih (b + 1) _ h
      simp only [List.length_cons]
      omega

theorem charMapFrom_fst_mono (runs : List Run) (b p1 p2 r1 c1 r2 c2 : Nat)
    (hle : p1 ≤ p2)
    (h1 : (charMapFrom runs b).get? p1 = some (r1, c1))
    (h2 : (charMapFrom runs b).get? p2 = some (r2, c2)) : r1 ≤ r2 := by
  induction runs generalizing b p1 p2 with
  | nil => simp [charMapFrom] at h1
  | cons r rest ih =>
    by_cases hlt1 : p1 < (runText r).length
    · rw [charMapFrom_get_head rest b p1 hlt1] at h1
      obtain ⟨e1, e2⟩ := Prod.mk.inj (Option.some.inj h1)
      by_cases hlt2 : p2 < (runText r).length
      · rw [charMapFrom_get_head rest b p2 hlt2] at h2
        obtain ⟨e3, e4⟩ := Prod.mk.inj (Option.some.inj h2)
        omega
      · rw [charMapFrom_get_tail rest b p2 (by omega)] at h2
        have := charMapFrom_fst_ge rest (b + 1) _ _ _ h2
        omega
    · rw [charMapFrom_get_tail rest b p1 (by omega)] at h1
      rw [charMapFrom_get_tail rest b p2 (by omega)] at h2
      exact ih (b + 1) _ _ (by omega) h1 h2

/-! ### Containment through the run transformer -/

mutual
/-- Whatever the replacement function emits at a text-bearing run is
contained in the transformed tree: per-item form. -/
theorem rtr_in_item (f : Nat → Run → List Item) (x it : Item) (c j : Nat)
    (hj : j < (textRunsItem it).length)
    (hx : x ∈ f (c + j) ((textRunsItem it).getD j dfltRun)) :
    inItems x (rtrItem f it c).1 := by
  cases it with
  | run r =>
    by_cases h : r.hasT
    · simp only [textRunsItem, h, if_true, List.length_cons, List.length_nil] at hj
      have hj0 : j = 0 := by omega
      subst hj0
      simp only [textRunsItem, h, if_true, List.getD_cons_zero, Nat.add_zero] at hx
      simp only [rtrItem, h, if_true]
      exact mem_inItems hx
    · exact absurd hj (by simp [textRunsItem, h])
  | ins i a d ch => exact Or.inl (Or.inr (rtr_in_items f x ch c j hj hx))
  | del i a d ch => exact Or.inl (Or.inr (rtr_in_items f x ch c j hj hx))
  | hyper rid ch => exact Or.inl (Or.inr (rtr_in_items f x ch c j hj hx))
  | crStart i => exact absurd hj (by simp [textRunsItem])
  | crEnd i => exact absurd hj (by simp [textRunsItem])
  | crRef i => exact absurd hj (by simp [textRunsItem])
  | other i => exact absurd hj (by simp [textRunsItem])

theorem rtr_in_items (f : Nat → Run → List Item) (x : Item) (l : List Item) (c j : Nat)
    (hj : j < (textRunsItems l).length)
    (hx : x ∈ f (c + j) ((textRunsItems l).getD j dfltRun)) :
    inItems x (rtrItems f l c).1 := by
  cases l with
  | nil => exact absurd hj (by simp [textRunsItems])
  | cons it rest =>
    simp only [textRunsItems] at hj hx
    by_cases hlt : j < (textRunsItem it).length
    · rw [List.getD_append _ _ _ _ hlt] at hx
      have hin := rtr_in_item f x it c j hlt hx
      show inItems x ((rtrItem f it c).1 ++ (rtrItems f rest (rtrItem f it c).2).1)
      exact (inItems_append x _ _).2 (Or.inl hin)
    · have hge : (textRunsItem it).length ≤ j := by omega
      rw [List.getD_append_right _ _ _ _ hge] at hx
      have harg : c + j
          = (c + (textRunsItem it).length) + (j - (textRunsItem it).length) := by omega
      rw [harg] at hx
      have hj2 : j - (textRunsItem it).length < (textRunsItems rest).length := by
        rw [List.length_append] at hj
        omega
      have hin := rtr_in_items f x rest (c + (textRunsItem it).length)
        (j - (textRunsItem it).length) hj2 hx
      rw [← rtrItem_counter f it c] at hin
      show inItems x ((rtrItem f it c).1 ++ (rtrItems f rest (rtrItem f it c).2).1)
      exact (inItems_append x _ _).2 (Or.inr hin)
end

/-- The insert splice emits the insertion wrapper carrying the **last**
matched run's formatting copy, and — when the match ends mid-run — a
remainder run with the same formatting. -/
theorem trackInsertSplice_contains (p : Para) (insertText : Str)
    (m : List (Nat × Nat × Nat)) (nid : Int) (author ts : Str)
    (lastRun : Run) (after : Str)
    (hlt : (m.getLastD (0, 0, 0)).1 < (textRuns p).length)
    (hlast : lastRun = (textRuns p).getD (m.getLastD (0, 0, 0)).1 dfltRun)
    (hafter : after = (runText lastRun).drop (m.getLastD (0, 0, 0)).2.2) :
    inItems (.ins (intToStr nid) author ts [.run (mkRun insertText lastRun.rpr false)])
      (trackInsertSplice p insertText m nid author ts)
    ∧ (after ≠ [] →
      inItems (.run (mkRun after lastRun.rpr false))
        (trackInsertSplice p insertText m nid author ts)) := by
  subst hafter
  subst hlast
  simp only [trackInsertSplice]
  constructor
  · refine rtr_in_items _ _ p 0 (m.getLastD (0, 0, 0)).1 hlt ?_
    simp only [Nat.zero_add, if_pos rfl]
    by_cases hne : (runText ((textRuns p).getD (m.getLastD (0, 0, 0)).1 dfltRun)).drop
        (m.getLastD (0, 0, 0)).2.2 ≠ []
    · rw [if_pos hne]
      exact List.mem_cons_of_mem _ (List.mem_cons_self _ _)
    · rw [if_neg hne]
      exact List.mem_cons_of_mem _ (List.mem_cons_self _ _)
  · intro hne
    refine rtr_in_items _ _ p 0 (m.getLastD (0, 0, 0)).1 hlt ?_
    simp only [Nat.zero_add, if_pos rfl]
    rw [if_pos hne]
    exact List.mem_cons_of_mem _ (List.mem_cons_of_mem _ (List.mem_cons_self _ _))

/-- **C10**: on a successful `track_insert_in_doc` call, the run inside
the new `w:ins` wrapper carries the formatting record of the **last**
matched run of the `after_text` match, and the remainder run created
when the match ends mid-run carries the same formatting. -/
theorem C10_insert_formatting_from_last_run (f : DocxFile)
    (afterText insertText author ts : Str) (k : Nat)
    (m : List (Nat × Nat × Nat)) (lastRun : Run) (after : Str)
    (hs : afterText ≠ [])
    (hf : findFirstPara (getParagraphs f.doc) afterText 0 = some (k, m))
    (hlast : lastRun = List.getD (textRuns ((getParagraphs f.doc).getD k []))
      (m.getLastD (0, 0, 0)).1 dfltRun)
    (hafter : after = (runText lastRun).drop (m.getLastD (0, 0, 0)).2.2) :
    inItems
      (.ins (intToStr (generateId f.doc)) author ts
        [.run (mkRun insertText lastRun.rpr false)])
      ((getParagraphs
        (trackInsertInDoc f afterText insertText author ts).2.doc).getD k [])
    ∧ (after ≠ [] →
      inItems (.run (mkRun after lastRun.rpr false))
        ((getParagraphs
          (trackInsertInDoc f afterText insertText author ts).2.doc).getD k [])) := by
  obtain ⟨hk, hfind⟩ := findFirstPara_spec (getParagraphs f.doc) afterText 0 k m hf
  obtain ⟨pos, sri, sci, eri, eci, hfindpos, hocc, hmin, hq1, hq2, hm⟩ :=
    findText_spec ((getParagraphs f.doc).getD k []) afterText m hs hfind
  have hs1 : 1 ≤ afterText.length := List.length_pos.2 hs
  have hmono : sri ≤ eri :=
    charMapFrom_fst_mono _ 0 pos (pos + afterText.length - 1) _ _ _ _ (by omega) hq1 hq2
  have heri : eri < (textRuns ((getParagraphs f.doc).getD k [])).length := by
    have := charMapFrom_fst_lt _ 0 _ _ _ hq2
    omega
  have hlastm : m.getLastD (0, 0, 0) = (eri, if eri = sri then sci else 0, eci + 1) := by
    rw [hm]
    exact buildMatch_getLastD _ _ _ _ _ hmono _
  have hlt : (m.getLastD (0, 0, 0)).1
      < (textRuns ((getParagraphs f.doc).getD k [])).length := by
    rw [hlastm]
    exact heri
  cases hb : f.doc.body with
  | none =>
    exfalso
    rw [show getParagraphs f.doc = [] from by simp [getParagraphs, hb]] at hk
    exact absurd hk (by simp)
  | some paras =>
    have hgp : getParagraphs f.doc = paras := by simp [getParagraphs, hb]
    simp only [trackInsertInDoc, hf, saveDocumentXml]
    have hset : getParagraphs (setPara f.doc k (trackInsertSplice
        ((getParagraphs f.doc).getD k []) insertText m (generateId f.doc) author ts))
        = paras.set k (trackInsertSplice
          ((getParagraphs f.doc).getD k []) insertText m (generateId f.doc) author ts) := by
      simp [getParagraphs, setPara, hb]
    have hkp : k < paras.length := by
      rw [hgp] at hk
      exact hk
    have hgetd : (paras.set k (trackInsertSplice
        ((getParagraphs f.doc).getD k []) insertText m (generateId f.doc) author ts)).getD
          k []
        = trackInsertSplice ((getParagraphs f.doc).getD k []) insertText m
          (generateId f.doc) author ts := by
      rw [getD_set]
      exact if_pos ⟨rfl, hkp⟩
    have hmain := trackInsertSplice_contains ((getParagraphs f.doc).getD k [])
      insertText m (generateId f.doc) author ts lastRun after hlt hlast hafter
    refine ⟨?_, fun hne => ?_⟩
    · rw [hset, hgetd]
      exact hmain.1
    · rw [hset, hgetd]
      exact hmain.2 hne

theorem C10_insert_formatting_from_last_run_witness :
    findFirstPara (getParagraphs demoFile.doc) (str "brow") 0 = some (0, [(1, 3, 7)]) ∧
    inItems
      (.ins (intToStr (generateId demoFile.doc)) (str "A") (str "T")
        [.run (mkRun (str "NEW") (some 1) false)])
      ((getParagraphs
        (trackInsertInDoc demoFile (str "brow") (str "NEW") (str "A")
          (str "T")).2.doc).getD 0 [])
    ∧ inItems (.run (mkRun (str "n") (some 1) false))
      ((getParagraphs
        (trackInsertInDoc demoFile (str "brow") (str "NEW") (str "A")
          (str "T")).2.doc).getD 0 []) := by
  have hf : findFirstPara (getParagraphs demoFile.doc) (str "brow") 0
      = some (0, [(1, 3, 7)]) := by
    rw [findFirstPara]
    decide
  have h := C10_insert_formatting_from_last_run demoFile (str "brow") (str "NEW")
    (str "A") (str "T") 0 [(1, 3, 7)] (mkTextRun (some 1) (str "ck brown")) (str "n")
    (by decide) hf rfl rfl
  exact ⟨hf, h.1, h.2 (by decide)⟩

/-! ### Replace-then-reject machinery -/

/-- The paragraph holds no tracked-change or hyperlink wrapper at any
position (plain runs and markers only). -/
def wrapperFree (p : Para) : Bool :=
  p.all (fun it => match it with
    | .ins _ _ _ _ => false
    | .del _ _ _ _ => false
    | .hyper _ _ => false
    | _ => true)

theorem passesFilter_none_none (i a : Str) : passesFilter none none i a = true := rfl

theorem insRemoveItems_append (φ : Str → Str → Bool) (a b : List Item) :
    insRemoveItems φ (a ++ b) = insRemoveItems φ a ++ insRemoveItems φ b := by
  induction a with
  | nil => simp [insRemoveItems]
  | cons it rest ih => simp [insRemoveItems, ih]

theorem delUnwrapItems_append (φ : Str → Str → Bool) (a b : List Item) :
    delUnwrapItems φ (a ++ b) = delUnwrapItems φ a ++ delUnwrapItems φ b := by
  induction a with
  | nil => simp [delUnwrapItems]
  | cons it rest ih => simp [delUnwrapItems, ih]

theorem insRemoveItems_of_wrapperFree (φ : Str → Str → Bool) (p : Para)
    (h : wrapperFree p = true) : insRemoveItems φ p = p := by
  induction p with
  | nil => rfl
  | cons it rest ih =>
    simp only [wrapperFree, List.all_cons, Bool.and_eq_true] at h
    have hr := ih (by simpa [wrapperFree] using h.2)
    cases it with
    | run r => simp [insRemoveItems, insRemoveItem, hr]
    | ins i a d ch => simp at h
    | del i a d ch => simp at h
    | hyper rid ch => simp at h
    | crStart i => simp [insRemoveItems, insRemoveItem, hr]
    | crEnd i => simp [insRemoveItems, insRemoveItem, hr]
    | crRef i => simp [insRemoveItems, insRemoveItem, hr]
    | other i => simp [insRemoveItems, insRemoveItem, hr]

theorem delUnwrapItems_of_wrapperFree (φ : Str → Str → Bool) (p : Para)
    (h : wrapperFree p = true) : delUnwrapItems φ p = p := by
  induction p with
  | nil => rfl
  | cons it rest ih =>
    simp only [wrapperFree, List.all_cons, Bool.and_eq_true] at h
    have hr := ih (by simpa [wrapperFree] using h.2)
    cases it with
    | run r => simp [delUnwrapItems, delUnwrapItem, hr]
    | ins i a d ch => simp at h
    | del i a d ch => simp at h
    | hyper rid ch => simp at h
    | crStart i => simp [delUnwrapItems, delUnwrapItem, hr]
    | crEnd i => simp [delUnwrapItems, delUnwrapItem, hr]
    | crRef i => simp [delUnwrapItems, delUnwrapItem, hr]
    | other i => simp [delUnwrapItems, delUnwrapItem, hr]

/-- On a wrapper-free paragraph, the reject pipeline commutes with the
run transformer: it acts chunk by chunk on the replacements. -/
theorem reject_rtr_comm (φ : Str → Str → Bool) (F : Nat → Run → List Item)
    (l : List Item) (c : Nat) (hwf : wrapperFree l = true) :
    delUnwrapItems φ (insRemoveItems φ (rtrItems F l c).1)
      = (rtrItems (fun k r => delUnwrapItems φ (insRemoveItems φ (F k r))) l c).1 := by
  induction l generalizing c with
  | nil => simp [rtrItems, insRemoveItems, delUnwrapItems]
  | cons it rest ih =>
    simp only [wrapperFree, List.all_cons, Bool.and_eq_true] at hwf
    have hrest : wrapperFree rest = true := by simpa [wrapperFree] using hwf.2
    show delUnwrapItems φ (insRemoveItems φ
        ((rtrItem F it c).1 ++ (rtrItems F rest (rtrItem F it c).2).1))
      = (rtrItem (fun k r => delUnwrapItems φ (insRemoveItems φ (F k r))) it c).1
        ++ (rtrItems (fun k r => delUnwrapItems φ (insRemoveItems φ (F k r))) rest
          (rtrItem (fun k r => delUnwrapItems φ (insRemoveItems φ (F k r))) it c).2).1
    rw [insRemoveItems_append, delUnwrapItems_append]
    have hcnt : (rtrItem (fun k r => delUnwrapItems φ (insRemoveItems φ (F k r))) it c).2
        = (rtrItem F it c).2 := by
      rw [rtrItem_counter, rtrItem_counter]
    rw [hcnt, ih _ hrest]
    congr 1
    cases it with
    | run r =>
      by_cases h : r.hasT
      · simp [rtrItem, h]
      · simp [rtrItem, h, insRemoveItems, insRemoveItem, delUnwrapItems, delUnwrapItem]
    | ins i a d ch => simp at hwf
    | del i a d ch => simp at hwf
    | hyper rid ch => simp at hwf
    | crStart i => simp [rtrItem, insRemoveItems, insRemoveItem, delUnwrapItems, delUnwrapItem]
    | crEnd i => simp [rtrItem, insRemoveItems, insRemoveItem, delUnwrapItems, delUnwrapItem]
    | crRef i => simp [rtrItem, insRemoveItems, insRemoveItem, delUnwrapItems, delUnwrapItem]
    | other i => simp [rtrItem, insRemoveItems, insRemoveItem, delUnwrapItems, delUnwrapItem]

theorem mkRun_del_not_hasT (t : Str) (rpr : Option Nat) :
    (mkRun t rpr true).hasT = false := by
  simp [mkRun, Run.hasT]

mutual
/-- The text-bearing runs of a transformed tree depend only on the
text-bearing runs each replacement chunk produces: per-item form. -/
theorem rtr_textRuns_congr_item (f1 f2 : Nat → Run → List Item)
    (h : ∀ k r, textRunsItems (f1 k r) = textRunsItems (f2 k r)) (it : Item) (c : Nat) :
    textRunsItems (rtrItem f1 it c).1 = textRunsItems (rtrItem f2 it c).1 := by
  cases it with
  | run r =>
    by_cases hT : r.hasT
    · simp only [rtrItem, hT, if_true]
      exact h c r
    · simp [rtrItem, hT]
  | ins i a d ch =>
    simp only [rtrItem]
    show textRunsItems [Item.ins i a d (rtrItems f1 ch c).1]
      = textRunsItems [Item.ins i a d (rtrItems f2 ch c).1]
    simp only [textRunsItems, textRunsItem, List.append_nil]
    exact rtr_textRuns_congr_items f1 f2 h ch c
  | del i a d ch =>
    simp only [rtrItem]
    show textRunsItems [Item.del i a d (rtrItems f1 ch c).1]
      = textRunsItems [Item.del i a d (rtrItems f2 ch c).1]
    simp only [textRunsItems, textRunsItem, List.append_nil]
    exact rtr_textRuns_congr_items f1 f2 h ch c
  | hyper rid ch =>
    simp only [rtrItem]
    show textRunsItems [Item.hyper rid (rtrItems f1 ch c).1]
      = textRunsItems [Item.hyper rid (rtrItems f2 ch c).1]
    simp only [textRunsItems, textRunsItem, List.append_nil]
    exact rtr_textRuns_congr_items f1 f2 h ch c
  | crStart i => rfl
  | crEnd i => rfl
  | crRef i => rfl
  | other i => rfl

theorem rtr_textRuns_congr_items (f1 f2 : Nat → Run → List Item)
    (h : ∀ k r, textRunsItems (f1 k r) = textRunsItems (f2 k r)) (l : List Item) (c : Nat) :
    textRunsItems (rtrItems f1 l c).1 = textRunsItems (rtrItems f2 l c).1 := by
  cases l with
  | nil => rfl
  | cons it rest =>
    show textRunsItems ((rtrItem f1 it c).1 ++ (rtrItems f1 rest (rtrItem f1 it c).2).1)
      = textRunsItems ((rtrItem f2 it c).1 ++ (rtrItems f2 rest (rtrItem f2 it c).2).1)
    rw [textRunsItems_append, textRunsItems_append,
      rtr_textRuns_congr_item f1 f2 h it c,
      rtr_textRuns_congr_items f1 f2 h rest _,
      rtrItem_counter f1 it c, rtrItem_counter f2 it c]
end

/-- The replace splice's text-bearing runs do not depend on the
allocated wrapper id. -/
theorem trackReplaceSplice_textRuns_id (p : Para) (oldText newText : Str)
    (m : List (Nat × Nat × Nat)) (nid nid2 : Int) (author ts : Str) :
    textRuns (trackReplaceSplice p oldText newText m nid author ts)
      = textRuns (trackReplaceSplice p oldText newText m nid2 author ts) := by
  simp only [trackReplaceSplice]
  apply rtr_textRuns_congr_items
  intro k r
  by_cases hk : k = (m.headD (0, 0, 0)).1
  · rw [if_pos hk, if_pos hk]
    by_cases hb : (runText ((textRuns p).getD (m.headD (0, 0, 0)).1 dfltRun)).take
        (m.headD (0, 0, 0)).2.1 ≠ [] <;>
      by_cases ha : (runText ((textRuns p).getD (m.getLastD (0, 0, 0)).1 dfltRun)).drop
        (m.getLastD (0, 0, 0)).2.2 ≠ [] <;>
    simp [hb, ha, textRunsItems_append, textRunsItems, textRunsItem,
      mkRun_del_not_hasT, mkRun_hasT]
  · rw [if_neg hk, if_neg hk]

/-- `_find_text_in_paragraph` reads only the text-bearing runs. -/
theorem findText_congr (p q : Para) (s : Str) (h : textRuns p = textRuns q) :
    findTextInParagraph p s = findTextInParagraph q s := by
  unfold findTextInParagraph
  rw [h]

theorem newItems_reject_text (φ : Str → Str → Bool) (before after s1 s2 : Str)
    (rpr rpr2 : Option Nat) (id1 id2 a ts : Str)
    (h1 : φ id1 a = true) (h2 : φ id2 a = true) :
    treeTextItems runText (delUnwrapItems φ (insRemoveItems φ
      ((if before ≠ [] then [Item.run (mkRun before rpr false)] else [])
        ++ [Item.del id1 a ts [Item.run (mkRun s1 rpr true)],
            Item.ins id2 a ts [Item.run (mkRun s2 rpr false)]]
        ++ (if after ≠ [] then [Item.run (mkRun after rpr2 false)] else []))))
      = before ++ s1 ++ after := by
  by_cases hb : before = [] <;> by_cases ha : after = [] <;>
    simp [hb, ha, insRemoveItems_append, delUnwrapItems_append, insRemoveItems,
      insRemoveItem, delUnwrapItems, delUnwrapItem, convertItems, convertItem,
      convertRun, mkRun, h1, h2, treeTextItems_append, treeTextItems, treeTextItem,
      runText]

/-- Text value of an in-place splice in plain-`<w:t>` measure (no
delText-freedom needed): replaces text run `sri` by new items and drops
text runs `sri+1 … eri`. -/
theorem rtr_splice_text (p : Para) (sri sci eri eci : Nat) (s : Str)
    (NI : List Item)
    (hnew : treeTextItems runText NI
        = (runText ((textRuns p).getD sri dfltRun)).take sci ++ s
          ++ (runText ((textRuns p).getD eri dfltRun)).drop (eci + 1))
    (hle : sri ≤ eri) (hlt : eri < (textRuns p).length)
    (hsand : joinedRunText (textRuns p)
        = joinedRunText ((textRuns p).take sri)
          ++ (runText ((textRuns p).getD sri dfltRun)).take sci
          ++ s ++ (runText ((textRuns p).getD eri dfltRun)).drop (eci + 1)
          ++ joinedRunText ((textRuns p).drop (eri + 1))) :
    treeTextItems runText
      ((rtrItems (fun k r => if k = sri then NI
          else if sri < k ∧ k ≤ eri then [] else [Item.run r]) p 0).1)
      = joinedRunText (textRuns p) := by
  have h1 := rtr_text_items (fun k r => if k = sri then NI
      else if sri < k ∧ k ≤ eri then [] else [Item.run r]) p 0
  have h2 := joinEnumFrom_congr
      (fun k r => treeTextItems runText (if k = sri then NI
          else if sri < k ∧ k ≤ eri then [] else [Item.run r]))
      (fun k r => if k = sri then treeTextItems runText NI
          else if sri < k ∧ k ≤ eri then [] else runText r)
      (textRuns p) 0 (by
        intro j hj
        simp only []
        by_cases hj1 : 0 + j = sri
        · rw [if_pos hj1, if_pos hj1]
        · rw [if_neg hj1, if_neg hj1]
          by_cases hj2 : sri < 0 + j ∧ 0 + j ≤ eri
          · rw [if_pos hj2, if_pos hj2]
            rfl
          · rw [if_neg hj2, if_neg hj2]
            simp [treeTextItems, treeTextItem])
  rcases joinEnumFrom_splice (treeTextItems runText NI) sri eri (textRuns p) 0
      (by omega) hle with h3 | h3
  · refine h1.trans (h2.trans ?_)
    rw [h3, hnew]
    conv_rhs => rw [hsand]
    have e1 : sri - 0 = sri := by omega
    have e2 : eri + 1 - 0 = eri + 1 := by omega
    rw [e1, e2]
    simp [List.append_assoc]
  · omega

/-- Rejecting the single tracked replacement made on a wrapper-free
paragraph restores the paragraph's plain `<w:t>` text exactly. -/
theorem reject_replaceSplice_text (p : Para) (oldText newText : Str)
    (hold : oldText ≠ []) (hwf : wrapperFree p = true)
    (m : List (Nat × Nat × Nat)) (hf : findTextInParagraph p oldText = some m)
    (nid : Int) (author ts : Str) (φ : Str → Str → Bool) (hφ : ∀ i a, φ i a = true) :
    plainText (delUnwrapItems φ (insRemoveItems φ
        (trackReplaceSplice p oldText newText m nid author ts)))
      = plainText p := by
  obtain ⟨pos, sri, sci, eri, eci, hfind, hocc, hmin, hq1, hq2, hm⟩ :=
    findText_spec p oldText m hold hf
  obtain ⟨hle, hlt, hsci, heci, hmt, hglob, hsand⟩ :=
    matchText_spec (textRuns p) oldText pos hold hocc sri sci eri eci hq1 hq2
  subst hm
  have hhead := buildMatch_headD (textRuns p) sri sci eri eci hle (0, 0, 0)
  have hlast := buildMatch_getLastD (textRuns p) sri sci eri eci hle (0, 0, 0)
  rw [show plainText p = joinedRunText (textRuns p) from plainText_eq_joined p,
    plainText]
  simp only [trackReplaceSplice, hhead, hlast]
  rw [reject_rtr_comm φ _ p 0 hwf, rtr_text_items]
  refine (joinEnumFrom_congr _
      (fun k r => if k = sri then
          (runText ((textRuns p).getD sri dfltRun)).take sci ++ oldText
            ++ (runText ((textRuns p).getD eri dfltRun)).drop (eci + 1)
        else if sri < k ∧ k ≤ eri then [] else runText r)
      (textRuns p) 0 ?_).trans ?_
  · intro j hj
    simp only []
    by_cases hj1 : 0 + j = sri
    · rw [if_pos hj1, if_pos hj1]
      exact newItems_reject_text φ _ _ _ _ _ _ _ _ _ _ (hφ _ _) (hφ _ _)
    · rw [if_neg hj1, if_neg hj1]
      by_cases hj2 : sri < 0 + j ∧ 0 + j ≤ eri
      · rw [if_pos hj2, if_pos hj2]
        rfl
      · rw [if_neg hj2, if_neg hj2]
        simp [insRemoveItems, insRemoveItem, delUnwrapItems, delUnwrapItem,
          treeTextItems, treeTextItem]
  · rcases joinEnumFrom_splice
        ((runText ((textRuns p).getD sri dfltRun)).take sci ++ oldText
          ++ (runText ((textRuns p).getD eri dfltRun)).drop (eci + 1))
        sri eri (textRuns p) 0 (by omega) hle with h3 | h3
    · rw [h3]
      conv_rhs => rw [hsand]
      have e1 : sri - 0 = sri := by omega
      have e2 : eri + 1 - 0 = eri + 1 := by omega
      rw [e1, e2]
      simp [List.append_assoc]
    · omega

mutual
/-- A contained passing `<w:ins>` wrapper makes the insertion count
positive: per-item form. -/
theorem countIns_pos_item (φ : Str → Str → Bool) (i a d : Str) (ch : List Item)
    (it : Item) (h : inItem (Item.ins i a d ch) it) (hφ : φ i a = true) :
    1 ≤ countInsItem φ it := by
  cases it with
  | ins i2 a2 d2 ch2 =>
    cases h with
    | inl he =>
      obtain ⟨h1, h2, h3, h4⟩ := Item.ins.inj he
      simp only [countInsItem, ← h1, ← h2, hφ, if_true]
      omega
    | inr hin =>
      have := countIns_pos_items φ i a d ch ch2 hin hφ
      simp only [countInsItem]
      omega
  | del i2 a2 d2 ch2 =>
    cases h with
    | inl he => exact absurd he (by simp)
    | inr hin =>
      have := countIns_pos_items φ i a d ch ch2 hin hφ
      simp only [countInsItem]
      omega
  | hyper rid ch2 =>
    cases h with
    | inl he => exact absurd he (by simp)
    | inr hin =>
      have := countIns_pos_items φ i a d ch ch2 hin hφ
      simp only [countInsItem]
      omega
  | run r => exact absurd h (by simp [inItem])
  | crStart j => exact absurd h (by simp [inItem])
  | crEnd j => exact absurd h (by simp [inItem])
  | crRef j => exact absurd h (by simp [inItem])
  | other j => exact absurd h (by simp [inItem])

theorem countIns_pos_items (φ : Str → Str → Bool) (i a d : Str) (ch : List Item)
    (l : List Item) (h : inItems (Item.ins i a d ch) l) (hφ : φ i a = true) :
    1 ≤ countInsItems φ l := by
  cases l with
  | nil => exact absurd h (by simp [inItems])
  | cons it rest =>
    cases h with
    | inl h1 =>
      have := countIns_pos_item φ i a d ch it h1 hφ
      simp only [countInsItems]
      omega
    | inr h2 =>
      have := countIns_pos_items φ i a d ch rest h2 hφ
      simp only [countInsItems]
      omega
end

/-- The replace splice always contains one passing insertion wrapper. -/
theorem countIns_replaceSplice_pos (p : Para) (oldText newText : Str)
    (hold : oldText ≠ [])
    (m : List (Nat × Nat × Nat)) (hf : findTextInParagraph p oldText = some m)
    (nid : Int) (author ts : Str) (φ : Str → Str → Bool) (hφ : ∀ i a, φ i a = true) :
    1 ≤ countInsItems φ (trackReplaceSplice p oldText newText m nid author ts) := by
  obtain ⟨pos, sri, sci, eri, eci, hfind, hocc, hmin, hq1, hq2, hm⟩ :=
    findText_spec p oldText m hold hf
  have hmono : sri ≤ eri :=
    charMapFrom_fst_mono _ 0 pos (pos + oldText.length - 1) _ _ _ _
      (by have := List.length_pos.2 hold; omega) hq1 hq2
  have heri : eri < (textRuns p).length := by
    have := charMapFrom_fst_lt _ 0 _ _ _ hq2
    omega
  subst hm
  have hhead := buildMatch_headD (textRuns p) sri sci eri eci hmono (0, 0, 0)
  simp only [trackReplaceSplice, hhead]
  refine countIns_pos_items φ (intToStr (nid + 1)) author ts
    [Item.run (mkRun newText ((textRuns p).getD sri dfltRun).rpr false)] _ ?_ (hφ _ _)
  refine rtr_in_items _ _ p 0 sri
    (show sri < (textRunsItems p).length from lt_of_le_of_lt hmono heri) ?_
  simp only [Nat.zero_add, if_pos rfl]
  exact List.mem_append.2 (Or.inl (List.mem_append.2 (Or.inr
    (List.mem_cons_of_mem _ (List.mem_cons_self _ _)))))

theorem getParagraphs_setPara (d : Doc) (k : Nat) (p : Para) :
    getParagraphs (setPara d k p) = (getParagraphs d).set k p := by
  cases hb : d.body <;> simp [getParagraphs, setPara, hb]

/-- One paragraph's `while True` loop of `track_replace_in_doc`, when
the old text stops re-occurring after a single splice: it performs
exactly zero or one replacement. -/
theorem replaceParaLoop_spec (oldText newText author ts : Str) (fuel k : Nat)
    (d : Doc) (hfuel : 2 ≤ fuel)
    (hnr : ∀ m, findTextInParagraph ((getParagraphs d).getD k []) oldText = some m →
      findTextInParagraph (trackReplaceSplice ((getParagraphs d).getD k [])
        oldText newText m 0 author ts) oldText = none) :
    (findTextInParagraph ((getParagraphs d).getD k []) oldText = none
      ∧ trackReplaceParaLoop oldText newText author ts fuel k d = some (d, 0))
    ∨ (∃ m, findTextInParagraph ((getParagraphs d).getD k []) oldText = some m
      ∧ k < (getParagraphs d).length
      ∧ trackReplaceParaLoop oldText newText author ts fuel k d
        = some (setPara d k (trackReplaceSplice ((getParagraphs d).getD k [])
            oldText newText m (generateId d) author ts), 1)) := by
  obtain ⟨f2, rfl⟩ : ∃ f2, fuel = f2 + 1 + 1 := ⟨fuel - 2, by omega⟩
  cases hfd : findTextInParagraph ((getParagraphs d).getD k []) oldText with
  | none =>
    left
    refine ⟨rfl, ?_⟩
    simp only [trackReplaceParaLoop, hfd]
  | some m =>
    right
    have hk : k < (getParagraphs d).length := by
      by_contra hk
      rw [List.getD_eq_default _ _ (by omega), findText_nil] at hfd
      cases hfd
    refine ⟨m, rfl, hk, ?_⟩
    have hpara : (getParagraphs (setPara d k (trackReplaceSplice
        ((getParagraphs d).getD k []) oldText newText m (generateId d) author ts))).getD
          k []
        = trackReplaceSplice ((getParagraphs d).getD k []) oldText newText m
            (generateId d) author ts := by
      rw [getParagraphs_setPara, getD_set, if_pos ⟨rfl, hk⟩]
    have hnone : findTextInParagraph ((getParagraphs (setPara d k (trackReplaceSplice
        ((getParagraphs d).getD k []) oldText newText m (generateId d) author
          ts))).getD k []) oldText = none := by
      rw [hpara,
        findText_congr _ (trackReplaceSplice ((getParagraphs d).getD k []) oldText
          newText m 0 author ts) oldText
          (trackReplaceSplice_textRuns_id _ _ _ _ _ _ _ _)]
      exact hnr m hfd
    simp only [trackReplaceParaLoop, hfd, hnone]

/-- The paragraph `for`-loop of `track_replace_in_doc` under the
no-reoccurrence condition: every processed paragraph is either left
untouched (no match) or replaced by a single splice, untouched
paragraphs keep their value, the body length is preserved, and a
non-zero count certifies a matched paragraph. -/
theorem replaceFold_spec (oldText newText author ts : Str) (fuel : Nat) (d0 : Doc)
    (hfuel : 2 ≤ fuel)
    (hnr : ∀ j m, findTextInParagraph ((getParagraphs d0).getD j []) oldText = some m →
      findTextInParagraph (trackReplaceSplice ((getParagraphs d0).getD j [])
        oldText newText m 0 author ts) oldText = none) :
    ∀ (n i : Nat) (d d2 : Doc) (c : Nat),
      (getParagraphs d).length = (getParagraphs d0).length →
      (∀ j, i ≤ j → (getParagraphs d).getD j [] = (getParagraphs d0).getD j []) →
      foldParas (trackReplaceParaLoop oldText newText author ts fuel) i n d
        = some (d2, c) →
      (getParagraphs d2).length = (getParagraphs d0).length
      ∧ (∀ j, j < i → (getParagraphs d2).getD j [] = (getParagraphs d).getD j [])
      ∧ (∀ j, i + n ≤ j →
          (getParagraphs d2).getD j [] = (getParagraphs d0).getD j [])
      ∧ (∀ j, i ≤ j → j < i + n →
          (findTextInParagraph ((getParagraphs d0).getD j []) oldText = none
            ∧ (getParagraphs d2).getD j [] = (getParagraphs d0).getD j [])
          ∨ (∃ m nid, findTextInParagraph ((getParagraphs d0).getD j []) oldText
              = some m
            ∧ (getParagraphs d2).getD j []
              = trackReplaceSplice ((getParagraphs d0).getD j [])
                  oldText newText m nid author ts))
      ∧ (c ≠ 0 → ∃ j m, i ≤ j ∧ j < i + n ∧ j < (getParagraphs d0).length
          ∧ findTextInParagraph ((getParagraphs d0).getD j []) oldText = some m) := by
  intro n
  induction n with
  | zero =>
    intro i d d2 c hlen hagree hfold
    simp only [foldParas, Option.some.injEq, Prod.mk.injEq] at hfold
    obtain ⟨hd, hc⟩ := hfold
    subst hd
    subst hc
    exact ⟨hlen, fun j _ => rfl, fun j hj => hagree j (by omega),
      fun j h1 h2 => absurd h2 (by omega), fun hc => absurd rfl hc⟩
  | succ n ih =>
    intro i d d2 c hlen hagree hfold
    have hd_i := hagree i (Nat.le_refl i)
    have hnrd : ∀ m,
        findTextInParagraph ((getParagraphs d).getD i []) oldText = some m →
        findTextInParagraph (trackReplaceSplice ((getParagraphs d).getD i [])
          oldText newText m 0 author ts) oldText = none := by
      rw [hd_i]
      exact hnr i
    simp only [foldParas] at hfold
    rcases replaceParaLoop_spec oldText newText author ts fuel i d hfuel hnrd with
      ⟨hfnone, hstep⟩ | ⟨m, hfsome, hik, hstep⟩
    · simp only [hstep] at hfold
      cases hfold2 : foldParas (trackReplaceParaLoop oldText newText author ts fuel)
          (i + 1) n d with
      | none =>
        rw [hfold2] at hfold
        cases hfold
      | some pr =>
        obtain ⟨d3, c2⟩ := pr
        rw [hfold2] at hfold
        simp only [Option.some.injEq, Prod.mk.injEq] at hfold
        obtain ⟨hd3, hc⟩ := hfold
        subst hd3
        obtain ⟨ih1, ih2, ih3, ih4, ih5⟩ := ih (i + 1) d d3 c2 hlen
          (fun j hj => hagree j (by omega)) hfold2
        refine ⟨ih1, fun j hj => ih2 j (by omega), fun j hj => ih3 j (by omega),
          ?_, ?_⟩
        · intro j hij hlt
          by_cases hji : j = i
          · subst hji
            left
            exact ⟨hd_i ▸ hfnone, (ih2 j (by omega)).trans hd_i⟩
          · exact ih4 j (by omega) (by omega)
        · intro hc0
          obtain ⟨j, m2, hj1, hj2, hj3, hj4⟩ := ih5 (by omega)
          exact ⟨j, m2, by omega, by omega, hj3, hj4⟩
    · simp only [hstep] at hfold
      have hlen1 : (getParagraphs (setPara d i (trackReplaceSplice
          ((getParagraphs d).getD i []) oldText newText m (generateId d) author
            ts))).length = (getParagraphs d0).length := by
        rw [getParagraphs_setPara, List.length_set]
        exact hlen
      have hagree1 : ∀ j, i + 1 ≤ j →
          (getParagraphs (setPara d i (trackReplaceSplice
            ((getParagraphs d).getD i []) oldText newText m (generateId d) author
              ts))).getD j []
            = (getParagraphs d0).getD j [] := by
        intro j hj
        rw [getParagraphs_setPara, getD_set, if_neg (by omega)]
        exact hagree j (by omega)
      cases hfold2 : foldParas (trackReplaceParaLoop oldText newText author ts fuel)
          (i + 1) n (setPara d i (trackReplaceSplice ((getParagraphs d).getD i [])
            oldText newText m (generateId d) author ts)) with
      | none =>
        rw [hfold2] at hfold
        cases hfold
      | some pr =>
        obtain ⟨d3, c2⟩ := pr
        rw [hfold2] at hfold
        simp only [Option.some.injEq, Prod.mk.injEq] at hfold
        obtain ⟨hd3, hc⟩ := hfold
        subst hd3
        obtain ⟨ih1, ih2, ih3, ih4, ih5⟩ := ih (i + 1) _ d3 c2 hlen1 hagree1 hfold2
        refine ⟨ih1, ?_, fun j hj => ih3 j (by omega), ?_, ?_⟩
        · intro j hj
          rw [ih2 j (by omega), getParagraphs_setPara, getD_set, if_neg (by omega)]
        · intro j hij hlt
          by_cases hji : j = i
          · subst hji
            right
            refine ⟨m, generateId d, hd_i ▸ hfsome, ?_⟩
            rw [ih2 j (by omega), getParagraphs_setPara, getD_set,
              if_pos ⟨rfl, hik⟩, hd_i]
          · exact ih4 j (by omega) (by omega)
        · intro hc0
          exact ⟨i, m, Nat.le_refl i, by omega, by omega, hd_i ▸ hfsome⟩

theorem getD_map_para (g : Para → Para) (l : List Para) (j : Nat) :
    (l.map g).getD j [] = if j < l.length then g (l.getD j []) else [] := by
  induction l generalizing j with
  | nil => simp
  | cons h t ihl =>
    cases j with
    | zero => simp
    | succ j2 =>
      simp only [List.map_cons, List.getD_cons_succ, List.length_cons, ihl j2]
      by_cases hc : j2 < t.length
      · rw [if_pos hc, if_pos (by omega)]
      · rw [if_neg hc, if_neg (by omega)]

/-- **C4** (amended): on a document whose paragraphs are wrapper-free
(plain runs and markers, no existing `w:ins`/`w:del`/`w:hyperlink`) and
where the old text does not re-occur in a paragraph once spliced, a
successful `track_replace_in_doc` immediately followed by
`reject_tracked_changes_in_doc` with no filters restores the
concatenated plain `<w:t>` text of every paragraph exactly.  (Without
these provisos the round trip is refuted by
the overlapping-match counterexample.) -/
theorem C4_replace_then_reject_restores_plain_text (fuel : Nat) (f : DocxFile)
    (oldText newText author ts : Str)
    (hfuel : 2 ≤ fuel) (hold : oldText ≠ [])
    (hwf : ∀ j, wrapperFree ((getParagraphs f.doc).getD j []) = true)
    (hnr : ∀ j m, findTextInParagraph ((getParagraphs f.doc).getD j []) oldText
        = some m →
      findTextInParagraph (trackReplaceSplice ((getParagraphs f.doc).getD j [])
        oldText newText m 0 author ts) oldText = none)
    (res : OpResult) (f1 : DocxFile)
    (hrep : trackReplaceInDoc fuel f oldText newText author ts = some (res, f1))
    (hsucc : res.success = true) :
    ∀ j, plainText ((getParagraphs
        (rejectTrackedChangesInDoc f1 none none).2.doc).getD j [])
      = plainText ((getParagraphs f.doc).getD j []) := by
  cases hfold : foldParas (trackReplaceParaLoop oldText newText author ts fuel) 0
      (getParagraphs f.doc).length f.doc with
  | none =>
    simp only [trackReplaceInDoc, hfold] at hrep
    cases hrep
  | some pr =>
    obtain ⟨root2, cnt⟩ := pr
    simp only [trackReplaceInDoc, hfold] at hrep
    by_cases hcnt : cnt = 0
    · rw [if_pos hcnt] at hrep
      simp only [Option.some.injEq, Prod.mk.injEq] at hrep
      obtain ⟨hres, hf1⟩ := hrep
      rw [← hres] at hsucc
      simp [failRes] at hsucc
    · rw [if_neg hcnt] at hrep
      simp only [Option.some.injEq, Prod.mk.injEq] at hrep
      obtain ⟨hres, hf1⟩ := hrep
      have hdoc1 : f1.doc = root2 := by
        rw [← hf1]
        rfl
      obtain ⟨flen, _funtch, _fhigh, fout, fpos⟩ := replaceFold_spec oldText newText
        author ts fuel f.doc hfuel hnr (getParagraphs f.doc).length 0 f.doc root2
        cnt rfl (fun j _ => rfl) hfold
      obtain ⟨j0, m0, _, _, hj0lt, hm0⟩ := fpos hcnt
      have hout0 := fout j0 (Nat.zero_le j0) (by omega)
      have hsplice0 : ∃ m nid,
          findTextInParagraph ((getParagraphs f.doc).getD j0 []) oldText = some m
          ∧ (getParagraphs root2).getD j0 []
            = trackReplaceSplice ((getParagraphs f.doc).getD j0 [])
                oldText newText m nid author ts := by
        rcases hout0 with ⟨hn, _⟩ | h
        · rw [hm0] at hn
          cases hn
        · exact h
      obtain ⟨m1, nid1, hm1, hq0⟩ := hsplice0
      have hφ : ∀ i a, passesFilter none none i a = true := fun i a => rfl
      have hj0lt1 : j0 < (getParagraphs f1.doc).length := by
        rw [hdoc1, flen]
        exact hj0lt
      have hrejpos : 1 ≤ ((getParagraphs f1.doc).map (fun p =>
          countInsItems (passesFilter none none) p
            + countDelItems (passesFilter none none)
              (insRemoveItems (passesFilter none none) p))).sum := by
        have helem : countInsItems (passesFilter none none)
              ((getParagraphs f1.doc).getD j0 [])
            + countDelItems (passesFilter none none)
              (insRemoveItems (passesFilter none none)
                ((getParagraphs f1.doc).getD j0 []))
            ∈ (getParagraphs f1.doc).map (fun p =>
              countInsItems (passesFilter none none) p
                + countDelItems (passesFilter none none)
                  (insRemoveItems (passesFilter none none) p)) := by
          rw [List.getD_eq_getElem _ _ hj0lt1]
          exact List.mem_map_of_mem _ (List.getElem_mem hj0lt1)
        have hge : 1 ≤ countInsItems (passesFilter none none)
            ((getParagraphs f1.doc).getD j0 []) := by
          rw [hdoc1, hq0]
          exact countIns_replaceSplice_pos _ _ _ hold _ hm1 _ _ _ _ hφ
        have := List.single_le_sum (fun x _ => Nat.zero_le x) _ helem
        omega
      intro j
      simp only [rejectTrackedChangesInDoc, saveDocumentXml]
      rw [if_neg (by omega)]
      dsimp only
      cases hb1 : f1.doc.body with
      | none =>
        exfalso
        rw [show getParagraphs f1.doc = [] from by simp [getParagraphs, hb1]]
          at hj0lt1
        simp at hj0lt1
      | some ps1 =>
        have hgp1 : getParagraphs f1.doc = ps1 := by simp [getParagraphs, hb1]
        have hroot3 : getParagraphs (⟨(some ps1).map (fun ps => ps.map (fun p =>
            delUnwrapItems (passesFilter none none)
              (insRemoveItems (passesFilter none none) p))), f1.doc.extraIds⟩ : Doc)
            = ps1.map (fun p => delUnwrapItems (passesFilter none none)
              (insRemoveItems (passesFilter none none) p)) := by
          simp [getParagraphs]
        rw [hroot3, getD_map_para]
        by_cases hj : j < ps1.length
        · rw [if_pos hj]
          have hjf : j < (getParagraphs f.doc).length := by
            rw [← flen, ← hdoc1, hgp1]
            exact hj
          have hps1j : ps1.getD j [] = (getParagraphs root2).getD j [] := by
            rw [← hgp1, hdoc1]
          rcases fout j (Nat.zero_le j) (by omega) with ⟨_, huntch⟩ | ⟨m2, nid2, hm2, hq2⟩
          · rw [hps1j, huntch,
              insRemoveItems_of_wrapperFree _ _ (hwf j),
              delUnwrapItems_of_wrapperFree _ _ (hwf j)]
          · rw [hps1j, hq2]
            exact reject_replaceSplice_text _ _ newText hold (hwf j) m2 hm2 nid2
              author ts _ hφ
        · rw [if_neg hj]
          have hjf : (getParagraphs f.doc).length ≤ j := by
            rw [← flen, ← hdoc1, hgp1]
            omega
          rw [List.getD_eq_default _ _ hjf]

/-- Single-run paragraph `"aaaa"` used to refute the unrestricted
replace-then-reject round trip. -/
def cePara : Para := [.run (mkTextRun none (str "aaaa"))]

def ceFile : DocxFile := ⟨⟨some [cePara], []⟩, none, none, none, 0⟩

/-- **C4** is refuted as stated: replacing `"aa"` by `"a"` in the
paragraph `"aaaa"` makes the re-search match into the freshly inserted
wrappers (three nested splices), and rejecting afterwards yields
`"aa"`, not the original `"aaaa"`. -/
theorem C4_replace_then_reject_counterexample :
    (trackReplaceInDoc 10 ceFile (str "aa") (str "a") (str "A") (str "T")).isSome
      = true
    ∧ ((trackReplaceInDoc 10 ceFile (str "aa") (str "a") (str "A") (str "T")).getD
        (failRes [], ceFile)).1.success = true
    ∧ plainText ((getParagraphs (rejectTrackedChangesInDoc
        ((trackReplaceInDoc 10 ceFile (str "aa") (str "a") (str "A") (str "T")).getD
          (failRes [], ceFile)).2 none none).2.doc).getD 0 [])
      = str "aa"
    ∧ plainText ((getParagraphs ceFile.doc).getD 0 []) = str "aaaa" := by
  refine ⟨?_, ?_, ?_, ?_⟩ <;> decide

theorem C4_replace_then_reject_restores_plain_text_witness :
    (trackReplaceInDoc 2 demoFile (str "brown") (str "RED") (str "A")
      (str "T")).isSome = true
    ∧ plainText ((getParagraphs (rejectTrackedChangesInDoc
        ((trackReplaceInDoc 2 demoFile (str "brown") (str "RED") (str "A")
          (str "T")).getD (failRes [], demoFile)).2 none none).2.doc).getD 0 [])
      = plainText ((getParagraphs demoFile.doc).getD 0 []) := by
  have hrep : trackReplaceInDoc 2 demoFile (str "brown") (str "RED") (str "A")
      (str "T")
      = some (((trackReplaceInDoc 2 demoFile (str "brown") (str "RED") (str "A")
          (str "T")).getD (failRes [], demoFile)).1,
        ((trackReplaceInDoc 2 demoFile (str "brown") (str "RED") (str "A")
          (str "T")).getD (failRes [], demoFile)).2) := by rfl
  have hwf : ∀ j, wrapperFree ((getParagraphs demoFile.doc).getD j []) = true := by
    intro j
    cases j with
    | zero => decide
    | succ n =>
      have hl : (getParagraphs demoFile.doc).length = 1 := by decide
      rw [List.getD_eq_default _ _ (by omega)]
      decide
  have hnr : ∀ j m, findTextInParagraph ((getParagraphs demoFile.doc).getD j [])
      (str "brown") = some m →
      findTextInParagraph (trackReplaceSplice ((getParagraphs demoFile.doc).getD j [])
        (str "brown") (str "RED") m 0 (str "A") (str "T")) (str "brown") = none := by
    intro j m hm
    cases j with
    | zero =>
      have he : findTextInParagraph ((getParagraphs demoFile.doc).getD 0 [])
          (str "brown") = some [(1, 3, 8)] := by decide
      rw [he] at hm
      cases Option.some.inj hm
      decide
    | succ n =>
      have hl : (getParagraphs demoFile.doc).length = 1 := by decide
      rw [List.getD_eq_default _ _ (by omega), findText_nil] at hm
      cases hm
  have h := C4_replace_then_reject_restores_plain_text 2 demoFile (str "brown")
    (str "RED") (str "A") (str "T") (by omega) (by decide) hwf hnr _ _ hrep
    (by decide)
  exact ⟨by decide, h 0⟩

/-- A package whose side-car comments part holds an orphaned comment
with numeric id `10` while the document tree holds no id at all. -/
def ceFile2 : DocxFile :=
  ⟨⟨some [[.run (mkTextRun none (str "hello"))]], []⟩,
   some [⟨str "10", str "B", str "T0", str "B", str "orphan", str "P"⟩],
   none, none, 0⟩

/-- **C2** is refuted as frozen: `_generate_id` scans only the document
tree and never the side-car comments part, so on `ceFile2` (orphaned
side-car comment id `10`, no document-tree ids) `track_insert_in_doc`
stamps the newly created insertion wrapper with id `"1"`, and `1` does
not exceed the side-car id `10` present at call time. -/
theorem C2_new_ids_exceed_existing_counterexample :
    (trackInsertInDoc ceFile2 (str "hello") (str "X") (str "A") (str "T")).1.success
      = true
    ∧ inItems (.ins (intToStr (generateId ceFile2.doc)) (str "A") (str "T")
        [.run (mkRun (str "X") none false)])
      ((getParagraphs
        (trackInsertInDoc ceFile2 (str "hello") (str "X") (str "A")
          (str "T")).2.doc).getD 0 [])
    ∧ intToStr (generateId ceFile2.doc) = str "1"
    ∧ (ceFile2.comments.getD []).map (fun c => parseInt c.id) = [some 10]
    ∧ ¬ ((10 : Int) < generateId ceFile2.doc) := by
  have hf : findFirstPara (getParagraphs ceFile2.doc) (str "hello") 0
      = some (0, [(0, 0, 5)]) := by
    rw [findFirstPara]
    decide
  refine ⟨?_, ?_, ?_, by decide, by decide⟩
  · simp only [trackInsertInDoc, hf]
    decide
  · simp only [trackInsertInDoc, hf, saveDocumentXml]
    have hp : (getParagraphs (setPara ceFile2.doc 0 (trackInsertSplice
        ((getParagraphs ceFile2.doc).getD 0 []) (str "X") [(0, 0, 5)]
        (generateId ceFile2.doc) (str "A") (str "T")))).getD 0 []
        = [.run (mkTextRun none (str "hello")),
           .ins (intToStr (generateId ceFile2.doc)) (str "A") (str "T")
             [.run (mkRun (str "X") none false)]] := by
      rfl
    rw [hp]
    exact Or.inr (Or.inl (Or.inl rfl))
  · rw [show generateId ceFile2.doc = (1 : Int) from by decide]
    rw [intToStr, if_neg (by decide), natToStr]
    decide

end WordSrv
